import Mathlib

/-
Verification of the hex-spiral coordinate library.

The development shallowly embeds the library's three source files:
* `src/position.rs`: ring decomposition, neighbor enumeration, directional
  walks, and the connected-group predicate (a small datalog program).
* `src/convert.rs`: conversion between spiral positions and cube coordinates.

Machine integers (`usize`, `i32`) are modelled as `Nat`/`Int`; none of the
reachable arithmetic overflows or underflows, and each place where Rust would
panic (assertions, division by zero) is noted at the corresponding definition.
-/

namespace HexSpiral

/-- Lean model of `ring_offset` (src/position.rs): the starting position of
hexes within the ring with the given index. -/
def ring_offset (ring : Nat) : Nat :=
  if ring = 0 then 0 else 3 * (ring - 1) * ring + 1

/-- Helper for `ring`: the Rust code scans `(0..).map(ring_offset)` for the
first index `k` with `pos < ring_offset k` and subtracts one.  The scan is
modelled with explicit fuel; `ring` supplies enough fuel (`pos + 2`) for the
scan to reach its answer, since `pos < ring_offset (pos + 1)`. -/
def ringAux (pos : Nat) : Nat → Nat → Nat
  | k, 0 => k - 1
  | k, fuel + 1 => if pos < ring_offset k then k - 1 else ringAux pos (k + 1) fuel

/-- Lean model of `ring` (src/position.rs): the index of the ring for the
given position. -/
def ring (pos : Nat) : Nat := ringAux pos 0 (pos + 2)

/-- Lean model of `is_at_ring_tip` (src/position.rs): `true` if the given
position is at one of the tips of a ring. -/
def is_at_ring_tip (pos : Nat) : Bool :=
  let r := ring pos
  let ro := ring_offset r
  (List.range 6).any (fun n => pos == ro + n * r)

/-- Lean model of `ring_edge_index` (src/position.rs): the index of the edge of
the ring the given position belongs to.  The Rust code computes
`(pos - ring_offset(ring)) / ring` and panics with a division by zero when
`ring = 0` (that is, when `pos = 0`); the panic is modelled as `none`. -/
def ring_edge_index (pos : Nat) : Option Nat :=
  let r := ring pos
  if r = 0 then none else some ((pos - ring_offset r) / r)

/-- Lean model of `ring_neighboring_positions` (src/position.rs), returning the
two same-ring neighbors as a pair (the Rust code uses a two-element array).
The Rust code asserts `pos != 0`; every reachable call site passes a nonzero
position, and the definition is left total. -/
def ring_neighboring_positions (pos : Nat) : Nat × Nat :=
  let r := ring pos
  if pos = ring_offset r then (ring_offset (r + 1) - 1, pos + 1)
  else if pos = ring_offset (r + 1) - 1 then (pos - 1, ring_offset r)
  else (pos - 1, pos + 1)

/-- Model of slice `rotate_right`: for `n ≤ l.length` the last `n` elements are
moved to the front, exactly as Rust rotates the six-element neighbor array. -/
def rotr {α : Type} (l : List α) (n : Nat) : List α :=
  l.drop (l.length - n) ++ l.take (l.length - n)

/-- Lean model of `neighboring_positions` (src/position.rs): the 6 neighbors of
the given position, always in the same clockwise order.  Array indexing is
modelled with `getD`; the edge index is available as `some` since the branch
guarantees `ring pos ≠ 0`. -/
def neighboring_positions (pos : Nat) : List Nat :=
  let r := ring pos
  if r = 0 then [1, 2, 3, 4, 5, 6]
  else
    let edge_index := (ring_edge_index pos).getD 0
    let poss :=
      if is_at_ring_tip pos then
        let lower_neighbor := ring_offset (r - 1) + (r - 1) * edge_index
        let ring_neighbors := ring_neighboring_positions pos
        let upper_tip_neighbor :=
          if pos = ring_offset (r + 1) - 1 then ring_offset (r + 2) - 2
          else ring_offset (r + 1) + (r + 1) * edge_index
        let upper_tip_neighbors := ring_neighboring_positions upper_tip_neighbor
        [upper_tip_neighbor, upper_tip_neighbors.2, ring_neighbors.2,
          lower_neighbor, ring_neighbors.1, upper_tip_neighbors.1]
      else
        let ring_pos := pos - ring_offset r
        let tip_offset := ring_pos - edge_index * r
        let lower_neighbors :=
          if pos = ring_offset (r + 1) - 1 then (ring_offset r - 1, ring_offset (r - 1))
          else
            let lower_neighbor1 := ring_offset (r - 1) + edge_index * (r - 1) + tip_offset - 1
            (lower_neighbor1, lower_neighbor1 + 1)
        let ring_neighbors := ring_neighboring_positions pos
        let upper_neighbor1 := ring_offset (r + 1) + edge_index * (r + 1) + tip_offset
        [upper_neighbor1, upper_neighbor1 + 1, ring_neighbors.2,
          lower_neighbors.2, lower_neighbors.1, ring_neighbors.1]
    rotr poss edge_index

/-- Lean model of `are_neighbors` (src/position.rs). -/
def are_neighbors (pos1 pos2 : Nat) : Bool :=
  (neighboring_positions pos1).contains pos2

/-- Lean model of the `DirectionalNeighborIter` state (src/position.rs). -/
structure DirectionalNeighborIter where
  curr_pos : Nat
  dir : Nat

/-- One step of the iterator: `Iterator::next` replaces the current position
with `neighboring_positions(curr_pos)[dir]` and yields it. -/
def DirectionalNeighborIter.next (it : DirectionalNeighborIter) :
    Nat × DirectionalNeighborIter :=
  let nxt := (neighboring_positions it.curr_pos).getD it.dir 0
  (nxt, ⟨nxt, it.dir⟩)

/-- The list of the first `n` positions yielded by the iterator (the Rust
iterator is infinite; `take n` materialises a finite prefix). -/
def dniTake (it : DirectionalNeighborIter) : Nat → List Nat
  | 0 => []
  | n + 1 =>
    let s := it.next
    s.1 :: dniTake s.2 n

/-- The single-step function `q ↦ neighboring_positions(q)[d]` of a walk in
direction `d`. -/
def dniStep (d : Nat) (q : Nat) : Nat := (neighboring_positions q).getD d 0

/-- Lean model of the `Cube` coordinate struct (src/convert.rs). -/
structure Cube where
  q : Int
  r : Int
  s : Int
deriving DecidableEq

/-- Lean model of `Cube::abs_largest` (src/convert.rs): the largest absolute
value of the cube coordinate components. -/
def Cube.abs_largest (c : Cube) : Int := max |c.q| (max |c.r| |c.s|)

/-- Lean model of `Cube::component_sum` (src/convert.rs). -/
def Cube.component_sum (c : Cube) : Int := c.q + c.r + c.s

/-- Lean model of `modulo` (src/convert.rs): `((a % b) + b) % b`.  On `Int`,
Lean's `%` is the Euclidean remainder; the Rust code applies the same formula
to the truncated `f32` remainder, and for `b > 0` both give the mathematical
non-negative remainder. -/
def modulo (a b : Int) : Int := ((a % b) + b) % b

/-- Lean model of `growing_trunc_tri` (src/convert.rs) under exact arithmetic.

The Rust function computes with `f32`.  On every call reachable from a
position `x < 2 ^ 24` (ring index `c ≤ 2365`, `x_prime = ring_offset c ≤ x <
ring_offset (c + 1)`, `phi ∈ {0, 4}`), each intermediate value is a multiple
of `1/4` with magnitude below `2 ^ 18`, hence exactly representable, and every
`f32` operation is exact.  On that range the computation is modelled exactly
over `Int` with all intermediate values scaled by `4`: `offset_x4 =
4 * offset_x`, `s4 = 4 * s`, `p_star4 = 4 * p_star`, `y14 = 4 * y_1`.  The
final `as i32` cast truncates toward zero, i.e. it maps `y_1 = y14 / 4` to
`sign y14 * (|y14| / 4)`.  Beyond `2 ^ 24` the `f32` computation rounds and
this model diverges from the source; the bit-accurate model is
`growing_trunc_tri_f32`, and `gtt32_exact` proves the two agree on the exact
range. -/
def growing_trunc_tri (x c x_prime phi : Int) : Int :=
  let p : Int := 6
  let offset_x4 := 4 * (x - x_prime)
  let s4 := offset_x4 - c * (2 * phi + p)
  let p_star4 := 4 * (c * p)
  let y14 := 6 / p * |modulo s4 p_star4 - 2 * (c * p)| - 6 * c
  if 4 * c < |y14| then Int.sign y14 * c else Int.sign y14 * (y14.natAbs / 4 : Nat)

/-- Lean model of `spiral_to_cube` (src/convert.rs) under exact arithmetic:
convert spiral hex coordinate `x` to cube coords `(q, r, s)`.  For `x < 2 ^ 24`
the `as f32` casts of `x`, of the ring index and of the ring offset are exact
(all are integers below `2 ^ 24`), so this model is bit-identical to the
source there; `spiral_to_cube_f32` models the rounding `f32` computation on
every input, and `stcf32_eq` proves the two agree for `x < 2 ^ 24`. -/
def spiral_to_cube (x : Nat) : Cube :=
  if x = 0 then ⟨0, 0, 0⟩
  else
    let ring_index := ring x
    let ro := ring_offset ring_index
    let q := growing_trunc_tri x ring_index ro 0
    let r := growing_trunc_tri x ring_index ro 4
    ⟨q, r, -q - r⟩

/-- Model of the linear search `x.into_iter().find(...)` in `cube_to_spiral`:
the first value in `[start, start + n)` satisfying `pred`, if any. -/
def findFirst (pred : Nat → Bool) (start : Nat) : Nat → Option Nat
  | 0 => none
  | n + 1 => if pred start then some start else findFirst pred (start + 1) n

/-- Lean model of `cube_to_spiral` (src/convert.rs): calculate a spiral hex
coordinate for an input `(q, r, s)` in cube coordinates. -/
def cube_to_spiral (coord : Cube) : Except String Nat :=
  if coord = ⟨0, 0, 0⟩ then .ok 0
  else if coord.component_sum ≠ 0 then .error "q + r + s != 0"
  else
    let ring_index := coord.abs_largest.toNat
    let ro := ring_offset ring_index
    match findFirst (fun v => decide (spiral_to_cube v = coord)) ro (ring_index * 6) with
    | some value => .ok value
    | none => .error "Couldn't find a solution"

/-- The `Neighbors` relation of the crepe datalog program (src/position.rs):
`Neighbors(p1, p2) <- Position(p1), Position(p2), (are_neighbors(p1, p2))`. -/
def neighborPairs (poss : List Nat) : List (Nat × Nat) :=
  poss.flatMap (fun p1 => poss.filterMap (fun p2 =>
    if are_neighbors p1 p2 then some (p1, p2) else none))

/-- One round of the datalog fixpoint computation for `Grouped`
(src/position.rs): `Grouped(p1, p2) <- Neighbors(p1, p2)` and
`Grouped(p1, p3) <- Neighbors(p1, p2), Grouped(p2, p3), (p1 != p3)`.
Facts not yet present are appended. -/
def groupedStep (nbrs g : List (Nat × Nat)) : List (Nat × Nat) :=
  g ++ ((nbrs ++ nbrs.flatMap (fun e => g.filterMap (fun f =>
      if e.2 = f.1 ∧ e.1 ≠ f.2 then some (e.1, f.2) else none))).dedup.filter
        (fun q => decide (q ∉ g)))

/-- Iterated rounds of `groupedStep` starting from the empty relation. -/
def groupedFix (nbrs : List (Nat × Nat)) : Nat → List (Nat × Nat)
  | 0 => []
  | f + 1 => groupedStep nbrs (groupedFix nbrs f)

/-- The ordered pairs `(l[i], l[j])` with `i ≠ j` of elements of `l`: the
pairs enumerated by `poss.iter().permutations(2)` in `are_grouped`. -/
def orderedPairs (l : List Nat) : List (Nat × Nat) :=
  (List.range l.length).flatMap (fun i => (List.range l.length).filterMap (fun j =>
    if i ≠ j then some (l.getD i 0, l.getD j 0) else none))

/-- Lean model of `are_grouped` (src/position.rs).  The crepe runtime computes
the least fixpoint of the `Grouped` rules over the given input positions and
the function checks that every ordered pair of input positions is related.
The least fixpoint is reached here by iterating `groupedStep`:
`poss.length ^ 2 + 1` rounds are proved below to suffice, because the relation
has at most `poss.length ^ 2` facts and grows strictly until it closes. -/
def are_grouped (poss : List Nat) : Bool :=
  let groups := groupedFix (neighborPairs poss) (poss.length * poss.length + 1)
  (orderedPairs poss).all (fun q => groups.contains q)

/-- The connectivity property of the specification: a sequence
`a = x₀, x₁, …, xn = b` with `n ≥ 1` whose members all lie in `poss` and whose
consecutive members are neighbors. -/
def HasPath (poss : List Nat) (a b : Nat) : Prop :=
  ∃ xs : List Nat, xs ≠ [] ∧ List.Chain (fun x y => are_neighbors x y = true) a xs ∧
    (∀ x ∈ a :: xs, x ∈ poss) ∧ (a :: xs).getLast? = some b

/-- Closed form, derived below, of the `q` axis computed by `spiral_to_cube`
on ring `k ≥ 1` at ring position `j ∈ [0, 6k)`. -/
def qClosed (k j : Int) : Int :=
  if j ≤ k then j
  else if j ≤ 2 * k then k
  else if j ≤ 4 * k then 3 * k - j
  else if j ≤ 5 * k then -k
  else j - 6 * k

/-- Closed form, derived below, of the `r` axis computed by `spiral_to_cube`
on ring `k ≥ 1` at ring position `j ∈ [0, 6k)`. -/
def rClosed (k j : Int) : Int :=
  if j ≤ k then -k
  else if j ≤ 3 * k then j - 2 * k
  else if j ≤ 4 * k then k
  else 5 * k - j

/-- Left inverse of `j ↦ (qClosed k j, rClosed k j)` on `[0, 6k)`, used to
prove that the ring search of `cube_to_spiral` succeeds exactly once. -/
def spiralInv (k q r : Int) : Int :=
  if r = -k then q
  else if q = k then r + 2 * k
  else if q + r = k then r + 2 * k
  else if r = k then 3 * k - q
  else if q = -k then 5 * k - r
  else q + 6 * k

/-- Round-to-nearest-even at 24 significand bits (IEEE-754 `binary32`), on a
`×4`-scaled integer carrier: the argument `m` stands for the value `m / 4`.
Every `f32` value reachable in `spiral_to_cube` lies on the quarter grid (the
inputs are integers; the only division that leaves the integer grid is the
exact exponent shift `c / 4.0`, and every product has an integer-valued
factor), so the carrier is exact.  A scaled `|m| < 2 ^ 24` means
`|value| < 2 ^ 22`, where the `f32` spacing is at most `1/4` and every quarter
multiple is representable, so the value is exact; above that, the spacing in
the binade `[2 ^ e, 2 ^ (e + 1))` is `2 ^ (e - 23)` (scaled:
`2 ^ (log2F |m| - 23)`) and the value is rounded to the nearest multiple of
the spacing, ties to the even multiple.  All reachable magnitudes are far
inside the normal `f32` range, so overflow and subnormals never arise. -/
def log2Aux : Nat → Nat → Nat
  | 0, _ => 0
  | fuel + 1, n => if 2 ≤ n then log2Aux fuel (n / 2) + 1 else 0

/-- Fuel-based binary logarithm `⌊log₂ n⌋`, structurally recursive so that
concrete instances reduce; fuel `64` is enough for every `n < 2 ^ 64`, far
above every magnitude reachable here. -/
def log2F (n : Nat) : Nat := log2Aux 64 n

def rnd4 (m : Int) : Int :=
  if m.natAbs < 2 ^ 24 then m
  else
    let n := m.natAbs
    let u := 2 ^ (log2F n - 23)
    let q := n / u
    let r := n % u
    let n2 :=
      if 2 * r < u then q * u
      else if u < 2 * r then (q + 1) * u
      else if q % 2 = 0 then q * u else (q + 1) * u
    if m < 0 then -(n2 : Int) else (n2 : Int)

/-- Rust's saturating `as i32` cast of an `f32` value on the scaled carrier:
truncation toward zero of `m / 4`, clamped to the `i32` range. -/
def i32cast (m : Int) : Int :=
  max (-(2 ^ 31)) (min (2 ^ 31 - 1) (Int.sign m * (m.natAbs / 4 : Nat)))

/-- Lean model of `modulo` (src/convert.rs) as computed on `f32` values:
`((a % b) + b) % b`, where Rust's `%` on floats is the exact truncated
remainder (`Int.tmod` on the scaled carrier, exact because the remainder of
two representable values is representable) and the `+` in between is a rounded
`f32` addition. -/
def modulo_f32 (a b : Int) : Int := Int.tmod (rnd4 (Int.tmod a b + b)) b

/-- Bit-accurate model of `growing_trunc_tri` (src/convert.rs): the `f32`
computation with round-to-nearest-even after every inexact operation, on the
`×4`-scaled carrier (all four arguments are scaled `f32` values).  The
divisions of the source are exact: `c / 4.0` and `c * p / 2.0` are exponent
shifts (`c` is a ring index converted from `usize`, so `4 ∣ c` and
`2 ∣ rnd4 (c * 24 / 4)` on the carrier), and `6.0 / p = 6.0 / 6.0 = 1.0`
(scaled `4`).  `y_1.signum() * c` is `±c`, exactly representable, and
`y_1.abs()` is exact, so neither is rounded. -/
def growing_trunc_tri_f32 (x c x_prime phi : Int) : Int :=
  let p : Int := 24
  let offset_x := rnd4 (x - x_prime)
  let s := rnd4 (offset_x - rnd4 (c / 4 * rnd4 (rnd4 (8 * phi / 4) + p) / 4))
  let p_star := rnd4 (c * p / 4)
  let y_1 := rnd4 (rnd4 (4 * |rnd4 (modulo_f32 s p_star - rnd4 (c * p / 4) / 2)| / 4)
    - rnd4 (6 * c / 4))
  if c < |y_1| then i32cast (Int.sign y_1 * c) else i32cast y_1

/-- Bit-accurate model of `spiral_to_cube` (src/convert.rs) including the
`f32` conversions `ring(x) as f32`, `ring_offset(…) as f32` and `x as f32`
(each a rounding to 24 significand bits) and the truncating `as usize` cast of
the ring index (nonnegative, so `toNat` of the floor). -/
def spiral_to_cube_f32 (x : Nat) : Cube :=
  if x = 0 then ⟨0, 0, 0⟩
  else
    let ring_index := rnd4 (4 * (ring x : Int))
    let ri := (ring_index / 4).toNat
    let ro := rnd4 (4 * (ring_offset ri : Int))
    let xf := rnd4 (4 * (x : Int))
    let q := growing_trunc_tri_f32 xf ring_index ro 0
    let r := growing_trunc_tri_f32 xf ring_index ro 16
    ⟨q, r, -q - r⟩

/-- Bit-accurate model of `cube_to_spiral` (src/convert.rs): identical to
`cube_to_spiral` except that the ring scan compares against the `f32`
conversion `spiral_to_cube_f32`.  The zero test and the component-sum test are
integer arithmetic in the source and unaffected by `f32`. -/
def cube_to_spiral_f32 (coord : Cube) : Except String Nat :=
  if coord = ⟨0, 0, 0⟩ then .ok 0
  else if coord.component_sum ≠ 0 then .error "q + r + s != 0"
  else
    let ring_index := coord.abs_largest.toNat
    let ro := ring_offset ring_index
    match findFirst (fun v => decide (spiral_to_cube_f32 v = coord)) ro (ring_index * 6) with
    | some value => .ok value
    | none => .error "Couldn't find a solution"

theorem ring_offset_succ (k : Nat) (hk : 1 ≤ k) :
    ring_offset (k + 1) = ring_offset k + 6 * k := by
  rcases k with _ | m
  · omega
  · simp only [ring_offset, if_neg (Nat.succ_ne_zero m), if_neg (Nat.succ_ne_zero (m + 1)),
      Nat.succ_sub_one]
    ring

theorem ring_offset_le_succ (k : Nat) : ring_offset k ≤ ring_offset (k + 1) := by
  cases k with
  | zero => simp [ring_offset]
  | succ m => rw [ring_offset_succ (m + 1) (by omega)]; omega

theorem ring_offset_mono {j k : Nat} (h : j ≤ k) : ring_offset j ≤ ring_offset k := by
  induction k with
  | zero => simp_all
  | succ m ih =>
    rcases Nat.lt_or_ge j (m + 1) with h' | h'
    · exact le_trans (ih (by omega)) (ring_offset_le_succ m)
    · have : j = m + 1 := by omega
      simp [this]

theorem lt_ring_offset_succ_self (p : Nat) : p < ring_offset (p + 1) := by
  simp only [ring_offset, if_neg (Nat.succ_ne_zero p), Nat.succ_sub_one]
  nlinarith [sq_nonneg p]

theorem ringAux_spec (pos : Nat) : ∀ fuel k, ring_offset k ≤ pos →
    pos < ring_offset (k + fuel) →
    ring_offset (ringAux pos k fuel) ≤ pos ∧ pos < ring_offset (ringAux pos k fuel + 1) := by
  intro fuel
  induction fuel with
  | zero => intro k h1 h2; rw [Nat.add_zero] at h2; omega
  | succ f ih =>
    intro k h1 h2
    rw [ringAux, if_neg (by omega)]
    rcases Nat.lt_or_ge pos (ring_offset (k + 1)) with h' | h'
    · have : ringAux pos (k + 1) f = k := by
        cases f with
        | zero => rfl
        | succ f' => rw [ringAux, if_pos h']; omega
      rw [this]; exact ⟨h1, h'⟩
    · refine ih (k + 1) h' ?_
      have : k + 1 + f = k + (f + 1) := by omega
      rw [this]; exact h2

theorem ring_spec (p : Nat) :
    ring_offset (ring p) ≤ p ∧ p < ring_offset (ring p + 1) := by
  have h := ringAux_spec p (p + 2) 0 (by simp [ring_offset])
    (by
      have h1 := lt_ring_offset_succ_self p
      have h2 := ring_offset_le_succ (p + 1)
      rw [Nat.zero_add]
      exact lt_of_lt_of_le h1 h2)
  exact h

theorem ring_unique (p k : Nat) (h1 : ring_offset k ≤ p) (h2 : p < ring_offset (k + 1)) :
    k = ring p := by
  have hs := ring_spec p
  by_contra hne
  rcases Nat.lt_or_ge k (ring p) with h | h
  · have : ring_offset (k + 1) ≤ ring_offset (ring p) := ring_offset_mono (by omega)
    omega
  · have hk : ring p < k := by omega
    have : ring_offset (ring p + 1) ≤ ring_offset k := ring_offset_mono (by omega)
    omega

theorem ring_of_ring_offset_add (k j : Nat) (hk : 1 ≤ k) (hj : j < 6 * k) :
    ring (ring_offset k + j) = k := by
  refine (ring_unique _ k (by omega) ?_).symm
  rw [ring_offset_succ k hk]; omega

theorem ring_pos_of_pos (p : Nat) (hp : 1 ≤ p) : 1 ≤ ring p := by
  have hs := ring_spec p
  by_contra h
  have h0 : ring p = 0 := by omega
  rw [h0] at hs
  simp [ring_offset] at hs
  omega

/-- Decomposition of a positive position into its ring index and the offset
within the ring. -/
theorem exists_ring_decomp (p : Nat) (hp : 1 ≤ p) :
    ∃ k j, 1 ≤ k ∧ j < 6 * k ∧ p = ring_offset k + j ∧ ring p = k := by
  have hs := ring_spec p
  have hk := ring_pos_of_pos p hp
  refine ⟨ring p, p - ring_offset (ring p), hk, ?_, by omega, rfl⟩
  have := ring_offset_succ (ring p) hk
  omega

theorem modulo_eq_self (a b : Int) (h1 : 0 ≤ a) (h2 : a < b) : modulo a b = a := by
  unfold modulo
  rw [Int.emod_eq_of_lt h1 h2, Int.add_emod_self, Int.emod_eq_of_lt h1 h2]

theorem modulo_eq_add (a b : Int) (h1 : -b ≤ a) (h2 : a < 0) (_hb : 0 < b) :
    modulo a b = a + b := by
  unfold modulo
  have h3 : a % b = (a + b) % b := (Int.add_emod_self).symm
  have h4 : (a + b) % b = a + b := Int.emod_eq_of_lt (by omega) (by omega)
  rw [h3, h4, Int.add_emod_self, h4]

theorem sign_mul_div_of_nonneg (y : Int) (h : 0 ≤ y) :
    Int.sign y * ((y.natAbs / 4 : Nat) : Int) = ((y.natAbs / 4 : Nat) : Int) := by
  rcases h.lt_or_eq with h' | h'
  · rw [Int.sign_eq_one_of_pos h', one_mul]
  · rw [← h']; simp

theorem sign_mul_div_of_nonpos (y : Int) (h : y ≤ 0) :
    Int.sign y * ((y.natAbs / 4 : Nat) : Int) = -((y.natAbs / 4 : Nat) : Int) := by
  rcases h.lt_or_eq with h' | h'
  · rw [Int.sign_eq_neg_one_of_neg h']; ring
  · rw [h']; simp

theorem dniTake_eq_range_map (p d : Nat) :
    ∀ m, dniTake ⟨p, d⟩ m = (List.range m).map (fun i => (dniStep d)^[i + 1] p) := by
  intro m
  induction m generalizing p with
  | zero => rfl
  | succ n ih =>
    show dniStep d p :: dniTake ⟨dniStep d p, d⟩ n = _
    rw [ih, List.range_succ_eq_map, List.map_cons, List.map_map]
    have h1 : (dniStep d)^[0 + 1] p = dniStep d p := by
      simp [Function.iterate_one]
    have h2 : ∀ i : Nat, (dniStep d)^[i + 1] (dniStep d p) = (dniStep d)^[i.succ + 1] p := by
      intro i
      exact (Function.iterate_succ_apply (dniStep d) (i + 1) p).symm
    rw [h1]
    refine congrArg _ ?_
    refine List.map_congr_left ?_
    intro i _
    simp only [Function.comp_apply]
    exact h2 i

/-- C5: for every position `p`, `ring_offset (ring p) ≤ p < ring_offset
(ring p + 1)`, and `ring p` is the unique ring index whose half-open offset
interval contains `p`. -/
theorem c5_ring_containment (p : Nat) :
    (ring_offset (ring p) ≤ p ∧ p < ring_offset (ring p + 1)) ∧
    ∀ k : Nat, ring_offset k ≤ p → p < ring_offset (k + 1) → k = ring p :=
  ⟨ring_spec p, fun k h1 h2 => ring_unique p k h1 h2⟩

theorem c5_ring_containment_witness :
    (ring_offset (ring 10) ≤ 10 ∧ 10 < ring_offset (ring 10 + 1)) ∧ 2 = ring 10 :=
  ⟨(c5_ring_containment 10).1, (c5_ring_containment 10).2 2 (by decide) (by decide)⟩

/-- C7: concrete neighbor enumeration for positions 0, 1, 18 and 53, in
exactly the documented order. -/
theorem c7_concrete_neighbors :
    neighboring_positions 0 = [1, 2, 3, 4, 5, 6] ∧
    neighboring_positions 1 = [7, 8, 2, 0, 6, 18] ∧
    neighboring_positions 18 = [36, 7, 1, 6, 17, 35] ∧
    neighboring_positions 53 = [54, 31, 52, 80, 81, 82] := by
  refine ⟨by decide, by decide, by decide, by decide⟩

/-- C8: for every starting position `p` and direction `d ∈ {0..5}`, the n-th
element yielded by `DirectionalNeighborIter` (1-indexed, i.e. at 0-based index
`i` of any `take`) is `i + 1` applications of the step
`q ↦ neighboring_positions(q)[d]` to `p` — in particular the first yielded
element is the neighbor of `p`, not `p` itself — and the first 10 elements of
the walk from 76 in direction 0 are [49, 28, 13, 4, 0, 1, 7, 19, 37, 61]. -/
theorem c8_directional_walk :
    (∀ p d : Nat, d ≤ 5 →
      ∀ m, dniTake ⟨p, d⟩ m = (List.range m).map (fun i => (dniStep d)^[i + 1] p)) ∧
    dniTake ⟨76, 0⟩ 10 = [49, 28, 13, 4, 0, 1, 7, 19, 37, 61] :=
  ⟨fun p d _ => dniTake_eq_range_map p d, by decide⟩

theorem c8_directional_walk_witness :
    dniTake ⟨3, 2⟩ 2 = (List.range 2).map (fun i => (dniStep 2)^[i + 1] 3) :=
  c8_directional_walk.1 3 2 (by decide) 2

/-- C9: calling `ring_edge_index` with `p = 0` divides by the ring index,
which is `0` for the center; in the embedding, where the division-by-zero
panic is guarded, the call yields no defined edge index rather than a
number. -/
theorem c9_ring_edge_index_center : ring_edge_index 0 = none ∧ ring 0 = 0 := by
  refine ⟨by decide, by decide⟩

theorem gtt_q (x0 k j : Int) (hk : 1 ≤ k) (hj0 : 0 ≤ j) (hj : j < 6 * k) :
    growing_trunc_tri (x0 + j) k x0 0 = qClosed k j := by
  have hxx : 4 * (x0 + j - x0) - k * (2 * 0 + 6) = 4 * j - 6 * k := by ring
  have hps : (4 : Int) * (k * 6) = 24 * k := by ring
  have h66 : (6 : Int) / 6 = 1 := by norm_num
  have h12 : (2 : Int) * (k * 6) = 12 * k := by ring
  simp only [growing_trunc_tri, hxx, hps, h12, h66, one_mul]
  rcases le_or_lt (6 * k) (4 * j) with hA | hA
  · rw [modulo_eq_self _ _ (by omega) (by omega)]
    rcases le_or_lt (4 * j) (18 * k) with hB | hB
    · rw [show (4 * j - 6 * k - 12 * k : Int) = 4 * j - 18 * k from by ring,
        abs_of_nonpos (show (4 * j - 18 * k : Int) ≤ 0 from by omega),
        show (-(4 * j - 18 * k) - 6 * k : Int) = 12 * k - 4 * j from by ring]
      rcases le_or_lt (12 * k - 4 * j) 0 with hC | hC
      · rw [abs_of_nonpos hC]
        split_ifs with hD
        · rw [Int.sign_eq_neg_one_of_neg (show (12 * k - 4 * j : Int) < 0 from by omega)]
          simp only [qClosed]; split_ifs <;> omega
        · rw [sign_mul_div_of_nonpos _ hC]
          simp only [qClosed]; split_ifs <;> omega
      · rw [abs_of_pos hC]
        split_ifs with hD
        · rw [Int.sign_eq_one_of_pos hC]
          simp only [qClosed]; split_ifs <;> omega
        · rw [sign_mul_div_of_nonneg _ (le_of_lt hC)]
          simp only [qClosed]; split_ifs <;> omega
    · rw [show (4 * j - 6 * k - 12 * k : Int) = 4 * j - 18 * k from by ring,
        abs_of_pos (show (0 : Int) < 4 * j - 18 * k from by omega),
        show (4 * j - 18 * k - 6 * k : Int) = 4 * j - 24 * k from by ring,
        abs_of_neg (show (4 * j - 24 * k : Int) < 0 from by omega)]
      split_ifs with hD
      · rw [Int.sign_eq_neg_one_of_neg (show (4 * j - 24 * k : Int) < 0 from by omega)]
        simp only [qClosed]; split_ifs <;> omega
      · rw [sign_mul_div_of_nonpos _ (show (4 * j - 24 * k : Int) ≤ 0 from by omega)]
        simp only [qClosed]; split_ifs <;> omega
  · rw [modulo_eq_add _ _ (by omega) (by omega) (by omega),
      show (4 * j - 6 * k + 24 * k - 12 * k : Int) = 4 * j + 6 * k from by ring,
      abs_of_nonneg (show (0 : Int) ≤ 4 * j + 6 * k from by omega),
      show (4 * j + 6 * k - 6 * k : Int) = 4 * j from by ring,
      abs_of_nonneg (show (0 : Int) ≤ 4 * j from by omega)]
    split_ifs with hD
    · rw [Int.sign_eq_one_of_pos (show (0 : Int) < 4 * j from by omega)]
      simp only [qClosed]; split_ifs <;> omega
    · rw [sign_mul_div_of_nonneg _ (show (0 : Int) ≤ 4 * j from by omega)]
      simp only [qClosed]; split_ifs <;> omega
theorem gtt_r (x0 k j : Int) (hk : 1 ≤ k) (hj0 : 0 ≤ j) (hj : j < 6 * k) :
    growing_trunc_tri (x0 + j) k x0 4 = rClosed k j := by
  have hxx : 4 * (x0 + j - x0) - k * (2 * 4 + 6) = 4 * j - 14 * k := by ring
  have hps : (4 : Int) * (k * 6) = 24 * k := by ring
  have h66 : (6 : Int) / 6 = 1 := by norm_num
  have h12 : (2 : Int) * (k * 6) = 12 * k := by ring
  simp only [growing_trunc_tri, hxx, hps, h12, h66, one_mul]
  rcases le_or_lt (14 * k) (4 * j) with hA | hA
  · rw [modulo_eq_self _ _ (by omega) (by omega),
      show (4 * j - 14 * k - 12 * k : Int) = 4 * j - 26 * k from by ring,
      abs_of_neg (show (4 * j - 26 * k : Int) < 0 from by omega),
      show (-(4 * j - 26 * k) - 6 * k : Int) = 20 * k - 4 * j from by ring]
    rcases le_or_lt (20 * k - 4 * j) 0 with hC | hC
    · rw [abs_of_nonpos hC]
      split_ifs with hD
      · rw [Int.sign_eq_neg_one_of_neg (show (20 * k - 4 * j : Int) < 0 from by omega)]
        simp only [rClosed]; split_ifs <;> omega
      · rw [sign_mul_div_of_nonpos _ hC]
        simp only [rClosed]; split_ifs <;> omega
    · rw [abs_of_pos hC]
      split_ifs with hD
      · rw [Int.sign_eq_one_of_pos hC]
        simp only [rClosed]; split_ifs <;> omega
      · rw [sign_mul_div_of_nonneg _ (le_of_lt hC)]
        simp only [rClosed]; split_ifs <;> omega
  · rw [modulo_eq_add _ _ (by omega) (by omega) (by omega),
      show (4 * j - 14 * k + 24 * k - 12 * k : Int) = 4 * j - 2 * k from by ring]
    rcases le_or_lt (2 * k) (4 * j) with hB | hB
    · rw [abs_of_nonneg (show (0 : Int) <= 4 * j - 2 * k from by omega),
        show (4 * j - 2 * k - 6 * k : Int) = 4 * j - 8 * k from by ring]
      rcases le_or_lt (4 * j - 8 * k) 0 with hC | hC
      · rw [abs_of_nonpos hC]
        split_ifs with hD
        · rw [Int.sign_eq_neg_one_of_neg (show (4 * j - 8 * k : Int) < 0 from by omega)]
          simp only [rClosed]; split_ifs <;> omega
        · rw [sign_mul_div_of_nonpos _ hC]
          simp only [rClosed]; split_ifs <;> omega
      · rw [abs_of_pos hC]
        split_ifs with hD
        · rw [Int.sign_eq_one_of_pos hC]
          simp only [rClosed]; split_ifs <;> omega
        · rw [sign_mul_div_of_nonneg _ (le_of_lt hC)]
          simp only [rClosed]; split_ifs <;> omega
    · rw [abs_of_neg (show (4 * j - 2 * k : Int) < 0 from by omega),
        show (-(4 * j - 2 * k) - 6 * k : Int) = -(4 * k) - 4 * j from by ring,
        abs_of_neg (show (-(4 * k) - 4 * j : Int) < 0 from by omega)]
      split_ifs with hD
      · rw [Int.sign_eq_neg_one_of_neg (show (-(4 * k) - 4 * j : Int) < 0 from by omega)]
        simp only [rClosed]; split_ifs <;> omega
      · rw [sign_mul_div_of_nonpos _ (show (-(4 * k) - 4 * j : Int) <= 0 from by omega)]
        simp only [rClosed]; split_ifs <;> omega

theorem spiral_to_cube_closed (k j : Nat) (hk : 1 ≤ k) (hj : j < 6 * k) :
    spiral_to_cube (ring_offset k + j)
      = ⟨qClosed k j, rClosed k j, -qClosed k j - rClosed k j⟩ := by
  have hro : 1 ≤ ring_offset k := by
    rcases k with _ | m
    · omega
    · simp [ring_offset]
  have hx0 : ring_offset k + j ≠ 0 := by omega
  have hcast : ((ring_offset k + j : Nat) : Int) = (ring_offset k : Int) + (j : Int) := by
    push_cast; ring
  simp only [spiral_to_cube, if_neg hx0, ring_of_ring_offset_add k j hk hj, hcast]
  rw [gtt_q _ _ _ (by exact_mod_cast hk) (by positivity) (by exact_mod_cast hj),
    gtt_r _ _ _ (by exact_mod_cast hk) (by positivity) (by exact_mod_cast hj)]

theorem max_abs3_eq {q r s k : Int} (h1 : -k ≤ q) (h2 : q ≤ k) (h3 : -k ≤ r) (h4 : r ≤ k)
    (h5 : -k ≤ s) (h6 : s ≤ k)
    (h7 : q = k ∨ q = -k ∨ r = k ∨ r = -k ∨ s = k ∨ s = -k) :
    max |q| (max |r| |s|) = k := by
  have hk0 : 0 ≤ k := by omega
  refine le_antisymm (max_le (abs_le.mpr ⟨h1, h2⟩)
    (max_le (abs_le.mpr ⟨h3, h4⟩) (abs_le.mpr ⟨h5, h6⟩))) ?_
  rcases h7 with h | h | h | h | h | h
  · calc k = |q| := by rw [h, abs_of_nonneg hk0]
    _ ≤ _ := le_max_left _ _
  · calc k = |q| := by rw [h, abs_neg, abs_of_nonneg hk0]
    _ ≤ _ := le_max_left _ _
  · calc k = |r| := by rw [h, abs_of_nonneg hk0]
    _ ≤ _ := le_trans (le_max_left _ _) (le_max_right _ _)
  · calc k = |r| := by rw [h, abs_neg, abs_of_nonneg hk0]
    _ ≤ _ := le_trans (le_max_left _ _) (le_max_right _ _)
  · calc k = |s| := by rw [h, abs_of_nonneg hk0]
    _ ≤ _ := le_trans (le_max_right _ _) (le_max_right _ _)
  · calc k = |s| := by rw [h, abs_neg, abs_of_nonneg hk0]
    _ ≤ _ := le_trans (le_max_right _ _) (le_max_right _ _)

theorem closed_abs_largest (k j : Int) (hk : 1 ≤ k) (hj0 : 0 ≤ j) (hj : j < 6 * k) :
    max |qClosed k j| (max |rClosed k j| |(-qClosed k j - rClosed k j)|) = k := by
  refine max_abs3_eq ?_ ?_ ?_ ?_ ?_ ?_ ?_ <;>
    simp only [qClosed, rClosed] <;> split_ifs <;> omega

theorem mem_neighborPairs {poss : List Nat} {x : Nat × Nat} :
    x ∈ neighborPairs poss ↔ x.1 ∈ poss ∧ x.2 ∈ poss ∧ are_neighbors x.1 x.2 = true := by
  cases x with
  | mk a b =>
    simp only [neighborPairs, List.mem_flatMap, List.mem_filterMap]
    constructor
    · rintro ⟨p1, hp1, p2, hp2, hif⟩
      by_cases h : are_neighbors p1 p2 = true
      · rw [if_pos h] at hif
        obtain ⟨rfl, rfl⟩ : p1 = a ∧ p2 = b := by
          constructor <;> [exact congrArg Prod.fst (Option.some.inj hif);
            exact congrArg Prod.snd (Option.some.inj hif)]
        exact ⟨hp1, hp2, h⟩
      · rw [if_neg h] at hif
        exact Option.noConfusion hif
    · rintro ⟨ha, hb, hn⟩
      exact ⟨a, ha, b, hb, by rw [if_pos hn]⟩

theorem subset_groupedStep (nbrs g : List (Nat × Nat)) : g ⊆ groupedStep nbrs g :=
  List.subset_append_left _ _

theorem groupedStep_nodup (nbrs g : List (Nat × Nat)) (h : g.Nodup) :
    (groupedStep nbrs g).Nodup := by
  refine List.Nodup.append h (List.Nodup.filter _ (List.nodup_dedup _)) ?_
  intro a ha hb
  rw [List.mem_filter] at hb
  have := hb.2
  simp only [decide_eq_true_eq] at this
  exact this ha

theorem groupedStep_mem {poss : List Nat} {nbrs g : List (Nat × Nat)}
    (hN : ∀ e ∈ nbrs, e.1 ∈ poss ∧ e.2 ∈ poss)
    (hG : ∀ x ∈ g, x.1 ∈ poss ∧ x.2 ∈ poss) :
    ∀ x ∈ groupedStep nbrs g, x.1 ∈ poss ∧ x.2 ∈ poss := by
  intro x hx
  rcases List.mem_append.mp hx with h | h
  · exact hG x h
  · rw [List.mem_filter] at h
    have h1 := List.mem_dedup.mp h.1
    rcases List.mem_append.mp h1 with h2 | h2
    · exact hN x h2
    · rw [List.mem_flatMap] at h2
      obtain ⟨e, he, hx2⟩ := h2
      rw [List.mem_filterMap] at hx2
      obtain ⟨f, hf, hif⟩ := hx2
      by_cases hc : e.2 = f.1 ∧ e.1 ≠ f.2
      · rw [if_pos hc] at hif
        obtain rfl := Option.some.inj hif
        exact ⟨(hN e he).1, (hG f hf).2⟩
      · rw [if_neg hc] at hif
        exact Option.noConfusion hif

theorem groupedStep_length {nbrs g : List (Nat × Nat)}
    (h : groupedStep nbrs g ≠ g) : g.length < (groupedStep nbrs g).length := by
  unfold groupedStep at *
  set extra := ((nbrs ++ nbrs.flatMap fun e => g.filterMap fun f =>
      if e.2 = f.1 ∧ e.1 ≠ f.2 then some (e.1, f.2) else none).dedup.filter
        (fun q => decide (q ∉ g))) with hex
  rcases List.eq_nil_or_concat extra with hnil | ⟨l2, b, hcat⟩
  · rw [hnil, List.append_nil] at h
    exact absurd rfl h
  · have hpos : 0 < extra.length := by rw [hcat]; simp
    rw [List.length_append]
    omega

theorem rotr_zero {α : Type} (l : List α) : rotr l 0 = l := by
  simp [rotr]

theorem mem_rotr {α : Type} (l : List α) (n : Nat) (x : α) : x ∈ rotr l n ↔ x ∈ l := by
  unfold rotr
  constructor
  · intro h
    rcases List.mem_append.mp h with h | h
    · exact List.mem_of_mem_drop h
    · exact List.mem_of_mem_take h
  · intro h
    rw [← List.take_append_drop (l.length - n) l] at h
    rcases List.mem_append.mp h with h | h
    · exact List.mem_append_right _ h
    · exact List.mem_append_left _ h

theorem ring_edge_index_eq (k e t : Nat) (hk : 1 ≤ k) (he : e ≤ 5) (ht : t < k) :
    ring_edge_index (ring_offset k + (e * k + t)) = some e := by
  have hj : e * k + t < 6 * k := by
    have : e * k ≤ 5 * k := Nat.mul_le_mul_right k he
    omega
  unfold ring_edge_index
  rw [ring_of_ring_offset_add k _ hk hj, if_neg (by omega), Nat.add_sub_cancel_left]
  congr 1
  rw [Nat.add_comm (e * k) t, Nat.add_mul_div_right t e (by omega), Nat.div_eq_of_lt ht]
  omega

theorem is_at_ring_tip_tip (k e : Nat) (hk : 1 ≤ k) (he : e ≤ 5) :
    is_at_ring_tip (ring_offset k + e * k) = true := by
  have hj : e * k < 6 * k := by
    have : e * k ≤ 5 * k := Nat.mul_le_mul_right k he
    omega
  unfold is_at_ring_tip
  rw [ring_of_ring_offset_add k _ hk hj, List.any_eq_true]
  exact ⟨e, List.mem_range.mpr (by omega), by rw [beq_iff_eq]⟩

theorem is_at_ring_tip_nontip (k e t : Nat) (hk : 1 ≤ k) (he : e ≤ 5) (ht1 : 1 ≤ t)
    (ht2 : t < k) :
    is_at_ring_tip (ring_offset k + (e * k + t)) = false := by
  have hj : e * k + t < 6 * k := by
    have : e * k ≤ 5 * k := Nat.mul_le_mul_right k he
    omega
  unfold is_at_ring_tip
  rw [ring_of_ring_offset_add k _ hk hj, List.any_eq_false]
  intro n hn
  rw [List.mem_range] at hn
  rw [beq_iff_eq]
  interval_cases n <;> interval_cases e <;> omega

theorem rnp_eq (k j : Nat) (hk : 1 ≤ k) (hj : j < 6 * k) :
    ring_neighboring_positions (ring_offset k + j)
      = if j = 0 then (ring_offset (k + 1) - 1, ring_offset k + 1)
        else if j = 6 * k - 1 then (ring_offset k + j - 1, ring_offset k)
        else (ring_offset k + j - 1, ring_offset k + j + 1) := by
  have hsucc := ring_offset_succ k hk
  unfold ring_neighboring_positions
  rw [ring_of_ring_offset_add k j hk hj]
  by_cases h0 : j = 0
  · subst h0
    rw [if_pos (by omega), if_pos rfl]
  · rw [if_neg (show ¬ ring_offset k + j = ring_offset k from by omega), if_neg h0]
    by_cases hl : j = 6 * k - 1
    · rw [if_pos (show ring_offset k + j = ring_offset (k + 1) - 1 from by omega), if_pos hl]
    · rw [if_neg (show ¬ ring_offset k + j = ring_offset (k + 1) - 1 from by omega), if_neg hl]

set_option maxHeartbeats 2000000 in
theorem spiralInv_closed (k j : Int) (hk : 1 ≤ k) (hj0 : 0 ≤ j) (hj : j < 6 * k) :
    spiralInv k (qClosed k j) (rClosed k j) = j := by
  simp only [qClosed, rClosed, spiralInv]
  split_ifs <;> omega

theorem closed_inj (k i j : Int) (hk : 1 ≤ k) (hi0 : 0 ≤ i) (hi : i < 6 * k)
    (hj0 : 0 ≤ j) (hj : j < 6 * k) (hq : qClosed k i = qClosed k j)
    (hr : rClosed k i = rClosed k j) : i = j := by
  have h1 := spiralInv_closed k i hk hi0 hi
  have h2 := spiralInv_closed k j hk hj0 hj
  rw [hq, hr] at h1
  omega

theorem findFirst_eq_some (pred : Nat → Bool) :
    ∀ (n start j : Nat), j < n → pred (start + j) = true →
    (∀ i, i < j → pred (start + i) = false) →
    findFirst pred start n = some (start + j) := by
  intro n
  induction n with
  | zero => omega
  | succ m ih =>
    intro start j hj hp hbef
    rw [findFirst]
    rcases Nat.eq_zero_or_pos j with rfl | hjpos
    · rw [if_pos (by simpa using hp), Nat.add_zero]
    · have h0 : pred start = false := by simpa using hbef 0 hjpos
      rw [if_neg (by simp [h0])]
      have hrec := ih (start + 1) (j - 1) (by omega)
        (by rw [show start + 1 + (j - 1) = start + j from by omega]; exact hp)
        (fun i hi => by
          rw [show start + 1 + i = start + (i + 1) from by omega]
          exact hbef (i + 1) (by omega))
      rw [hrec]
      congr 1
      omega

theorem cube_to_spiral_spiral_to_cube (p : Nat) :
    cube_to_spiral (spiral_to_cube p) = .ok p := by
  rcases Nat.eq_zero_or_pos p with rfl | hp
  · rfl
  · obtain ⟨k, j, hk, hj, rfl, hring⟩ := exists_ring_decomp p hp
    rw [spiral_to_cube_closed k j hk hj]
    have hkI : (1 : Int) ≤ (k : Int) := by exact_mod_cast hk
    have hjI : (j : Int) < 6 * (k : Int) := by exact_mod_cast hj
    have habs : Cube.abs_largest ⟨qClosed k j, rClosed k j, -qClosed k j - rClosed k j⟩
        = (k : Int) :=
      closed_abs_largest (k : Int) (j : Int) hkI (by positivity) hjI
    have hne : (⟨qClosed k j, rClosed k j, -qClosed k j - rClosed k j⟩ : Cube)
        ≠ ⟨0, 0, 0⟩ := by
      intro h
      rw [h] at habs
      simp [Cube.abs_largest] at habs
      omega
    have hsum : Cube.component_sum
        ⟨qClosed k j, rClosed k j, -qClosed k j - rClosed k j⟩ = 0 := by
      simp [Cube.component_sum]
    rw [cube_to_spiral, if_neg hne, if_neg (not_not_intro hsum)]
    simp only [habs, Int.toNat_natCast]
    have hfind := findFirst_eq_some
      (fun v => decide (spiral_to_cube v
        = ⟨qClosed k j, rClosed k j, -qClosed k j - rClosed k j⟩))
      (k * 6) (ring_offset k) j (by omega)
      (decide_eq_true (spiral_to_cube_closed k j hk hj))
      (fun i hi => by
        rw [decide_eq_false_iff_not]
        intro hEq
        rw [spiral_to_cube_closed k i hk (by omega)] at hEq
        have hq : qClosed (k : Int) (i : Int) = qClosed (k : Int) (j : Int) := by
          have := congrArg Cube.q hEq
          simpa using this
        have hr : rClosed (k : Int) (i : Int) = rClosed (k : Int) (j : Int) := by
          have := congrArg Cube.r hEq
          simpa using this
        have : (i : Int) = (j : Int) :=
          closed_inj (k : Int) (i : Int) (j : Int) hkI (by positivity)
            (by exact_mod_cast hi.trans hj) (by positivity) hjI hq hr
        omega)
    rw [hfind]

/-- C1: round trip of the core conversion: for every position below the spec
test bound `N = 10000`, `cube_to_spiral (spiral_to_cube p) = Ok p`. -/
theorem c1_round_trip (p : Nat) (_hp : p < 10000) :
    cube_to_spiral (spiral_to_cube p) = .ok p :=
  cube_to_spiral_spiral_to_cube p

theorem c1_round_trip_witness : cube_to_spiral (spiral_to_cube 45) = .ok 45 :=
  c1_round_trip 45 (by decide)

set_option maxHeartbeats 2000000 in
theorem exists_closed_eq (k q r : Int) (hk : 1 ≤ k)
    (hq1 : -k ≤ q) (hq2 : q ≤ k) (hr1 : -k ≤ r) (hr2 : r ≤ k)
    (hs1 : -k ≤ -q - r) (hs2 : -q - r ≤ k)
    (hmax : q = k ∨ q = -k ∨ r = k ∨ r = -k ∨ -q - r = k ∨ -q - r = -k) :
    ∃ j : Int, 0 ≤ j ∧ j < 6 * k ∧ qClosed k j = q ∧ rClosed k j = r := by
  refine ⟨spiralInv k q r, ?_⟩
  simp only [spiralInv, qClosed, rClosed]
  split_ifs <;> omega

theorem findFirst_isSome (pred : Nat → Bool) :
    ∀ (n start j : Nat), j < n → pred (start + j) = true →
    ∃ m, findFirst pred start n = some m := by
  intro n
  induction n with
  | zero => omega
  | succ nn ih =>
    intro start j hj hp
    rw [findFirst]
    by_cases h : pred start = true
    · rw [if_pos h]; exact ⟨start, rfl⟩
    · rw [if_neg h]
      rcases Nat.eq_zero_or_pos j with rfl | hjp
      · rw [Nat.add_zero] at hp; exact absurd hp h
      · exact ih (start + 1) (j - 1) (by omega)
          (by rw [show start + 1 + (j - 1) = start + j from by omega]; exact hp)

theorem abs_bounds_of_abs_largest (c : Cube) :
    (-c.abs_largest ≤ c.q ∧ c.q ≤ c.abs_largest) ∧
    (-c.abs_largest ≤ c.r ∧ c.r ≤ c.abs_largest) ∧
    (-c.abs_largest ≤ c.s ∧ c.s ≤ c.abs_largest) ∧
    (c.q = c.abs_largest ∨ c.q = -c.abs_largest ∨ c.r = c.abs_largest ∨
      c.r = -c.abs_largest ∨ c.s = c.abs_largest ∨ c.s = -c.abs_largest) := by
  have hq : |c.q| ≤ c.abs_largest := le_max_left _ _
  have hr : |c.r| ≤ c.abs_largest := le_trans (le_max_left _ _) (le_max_right _ _)
  have hs : |c.s| ≤ c.abs_largest := le_trans (le_max_right _ _) (le_max_right _ _)
  have hattain : |c.q| = c.abs_largest ∨ |c.r| = c.abs_largest ∨ |c.s| = c.abs_largest := by
    rcases max_choice |c.q| (max |c.r| |c.s|) with h1 | h1
    · left; rw [Cube.abs_largest, h1]
    · rcases max_choice |c.r| |c.s| with h2 | h2
      · right; left; rw [Cube.abs_largest, h1, h2]
      · right; right; rw [Cube.abs_largest, h1, h2]
  rw [abs_le] at hq hr hs
  have habs : 0 ≤ c.abs_largest := by omega
  rcases hattain with h1 | h1 | h1 <;> rw [abs_eq habs] at h1 <;> omega

/-- Every cube with component sum 0 other than the origin is hit by
`spiral_to_cube` somewhere on the ring given by its largest absolute
component. -/
theorem spiral_to_cube_surjective (c : Cube) (hsum : c.q + c.r + c.s = 0)
    (hne : c ≠ ⟨0, 0, 0⟩) :
    ∃ jn : Nat, jn < 6 * c.abs_largest.toNat ∧
      spiral_to_cube (ring_offset c.abs_largest.toNat + jn) = c := by
  obtain ⟨hq, hr, hs, hattain⟩ := abs_bounds_of_abs_largest c
  have hk1 : 1 ≤ c.abs_largest := by
    by_contra hcon
    push_neg at hcon
    have hq0 : c.q = 0 := by omega
    have hr0 : c.r = 0 := by omega
    have hs0 : c.s = 0 := by omega
    exact hne (by cases c; simp_all)
  have hsc : c.s = -c.q - c.r := by omega
  obtain ⟨j, hj0, hj6, hjq, hjr⟩ := exists_closed_eq c.abs_largest c.q c.r hk1
    hq.1 hq.2 hr.1 hr.2 (by omega) (by omega) (by omega)
  have hcast1 : ((c.abs_largest.toNat : Nat) : Int) = c.abs_largest := by omega
  have hcast2 : ((j.toNat : Nat) : Int) = j := by omega
  refine ⟨j.toNat, by omega, ?_⟩
  rw [spiral_to_cube_closed c.abs_largest.toNat j.toNat (by omega) (by omega),
    hcast1, hcast2, hjq, hjr, show -c.q - c.r = c.s from by omega]

theorem groupedFix_nodup (nbrs : List (Nat × Nat)) : ∀ f, (groupedFix nbrs f).Nodup
  | 0 => List.nodup_nil
  | f + 1 => groupedStep_nodup _ _ (groupedFix_nodup nbrs f)

theorem groupedFix_mem {poss : List Nat} {nbrs : List (Nat × Nat)}
    (hN : ∀ e ∈ nbrs, e.1 ∈ poss ∧ e.2 ∈ poss) :
    ∀ f, ∀ x ∈ groupedFix nbrs f, x.1 ∈ poss ∧ x.2 ∈ poss := by
  intro f
  induction f with
  | zero => intro x hx; exact absurd hx (List.not_mem_nil x)
  | succ n ih => exact groupedStep_mem hN ih

theorem groupedFix_length_le {poss : List Nat} {nbrs : List (Nat × Nat)}
    (hN : ∀ e ∈ nbrs, e.1 ∈ poss ∧ e.2 ∈ poss) (f : Nat) :
    (groupedFix nbrs f).length ≤ poss.length * poss.length := by
  have hnd := groupedFix_nodup nbrs f
  have hsub : (groupedFix nbrs f).toFinset ⊆ poss.toFinset ×ˢ poss.toFinset := by
    intro x hx
    rw [List.mem_toFinset] at hx
    obtain ⟨h1, h2⟩ := groupedFix_mem hN f x hx
    rw [Finset.mem_product]
    exact ⟨List.mem_toFinset.mpr h1, List.mem_toFinset.mpr h2⟩
  calc (groupedFix nbrs f).length = (groupedFix nbrs f).toFinset.card :=
      (List.toFinset_card_of_nodup hnd).symm
    _ ≤ (poss.toFinset ×ˢ poss.toFinset).card := Finset.card_le_card hsub
    _ = poss.toFinset.card * poss.toFinset.card := Finset.card_product _ _
    _ ≤ poss.length * poss.length :=
      Nat.mul_le_mul (List.toFinset_card_le _) (List.toFinset_card_le _)

theorem groupedFix_fix_or_le (nbrs : List (Nat × Nat)) :
    ∀ f, groupedStep nbrs (groupedFix nbrs f) = groupedFix nbrs f ∨
      f ≤ (groupedFix nbrs f).length := by
  intro f
  induction f with
  | zero => right; omega
  | succ n ih =>
    by_cases heq : groupedStep nbrs (groupedFix nbrs n) = groupedFix nbrs n
    · left
      have h2 : groupedFix nbrs (n + 1) = groupedFix nbrs n := heq
      rw [h2, heq]
    · rcases ih with h | h
      · exact absurd h heq
      · right
        have hlen := groupedStep_length heq
        show _ ≤ (groupedStep nbrs (groupedFix nbrs n)).length
        omega

theorem groupedFix_closed {poss : List Nat} {nbrs : List (Nat × Nat)}
    (hN : ∀ e ∈ nbrs, e.1 ∈ poss ∧ e.2 ∈ poss) :
    groupedStep nbrs (groupedFix nbrs (poss.length * poss.length + 1))
      = groupedFix nbrs (poss.length * poss.length + 1) := by
  rcases groupedFix_fix_or_le nbrs (poss.length * poss.length + 1) with h | h
  · exact h
  · have hle := groupedFix_length_le hN (poss.length * poss.length + 1)
    omega

theorem mem_of_step_eq_nbrs {nbrs G : List (Nat × Nat)}
    (hfix : groupedStep nbrs G = G) {e : Nat × Nat} (he : e ∈ nbrs) : e ∈ G := by
  by_cases h : e ∈ G
  · exact h
  · have hmem : e ∈ groupedStep nbrs G := by
      unfold groupedStep
      refine List.mem_append_right _ ?_
      rw [List.mem_filter]
      exact ⟨List.mem_dedup.mpr (List.mem_append_left _ he), by simpa using h⟩
    rw [hfix] at hmem
    exact hmem

theorem mem_of_step_eq_join {nbrs G : List (Nat × Nat)}
    (hfix : groupedStep nbrs G = G) {p1 p2 p3 : Nat}
    (h12 : (p1, p2) ∈ nbrs) (h23 : (p2, p3) ∈ G) (hne : p1 ≠ p3) : (p1, p3) ∈ G := by
  by_cases h : (p1, p3) ∈ G
  · exact h
  · have hmem : (p1, p3) ∈ groupedStep nbrs G := by
      unfold groupedStep
      refine List.mem_append_right _ ?_
      rw [List.mem_filter]
      refine ⟨List.mem_dedup.mpr (List.mem_append_right _ ?_), by simpa using h⟩
      rw [List.mem_flatMap]
      refine ⟨(p1, p2), h12, ?_⟩
      rw [List.mem_filterMap]
      exact ⟨(p2, p3), h23, by rw [if_pos ⟨rfl, hne⟩]⟩
    rw [hfix] at hmem
    exact hmem

theorem groupedFix_sound {poss : List Nat} {nbrs : List (Nat × Nat)}
    (hN : ∀ e ∈ nbrs, e.1 ∈ poss ∧ e.2 ∈ poss ∧ are_neighbors e.1 e.2 = true) :
    ∀ f, ∀ x ∈ groupedFix nbrs f, HasPath poss x.1 x.2 := by
  intro f
  induction f with
  | zero => intro x hx; exact absurd hx (List.not_mem_nil x)
  | succ n ih =>
    intro x hx
    rcases List.mem_append.mp hx with h | h
    · exact ih x h
    · rw [List.mem_filter] at h
      have h1 := List.mem_dedup.mp h.1
      rcases List.mem_append.mp h1 with h2 | h2
      · obtain ⟨ha, hb, hn⟩ := hN x h2
        refine ⟨[x.2], by simp, List.Chain.cons hn List.Chain.nil, ?_, by simp⟩
        intro y hy
        rcases List.mem_cons.mp hy with rfl | hy2
        · exact ha
        · rcases List.mem_cons.mp hy2 with rfl | hy3
          · exact hb
          · exact absurd hy3 (List.not_mem_nil y)
      · rw [List.mem_flatMap] at h2
        obtain ⟨e, he, hx2⟩ := h2
        rw [List.mem_filterMap] at hx2
        obtain ⟨f2, hf2, hif⟩ := hx2
        by_cases hc : e.2 = f2.1 ∧ e.1 ≠ f2.2
        · rw [if_pos hc] at hif
          obtain rfl := Option.some.inj hif
          obtain ⟨xs, hxs_ne, hchain, hmem, hlast⟩ := ih f2 hf2
          obtain ⟨ha, hb, hn⟩ := hN e he
          refine ⟨f2.1 :: xs, by simp, List.Chain.cons (hc.1 ▸ hn) hchain, ?_, ?_⟩
          · intro y hy
            rcases List.mem_cons.mp hy with rfl | hy2
            · exact ha
            · exact hmem y hy2
          · rw [List.getLast?_cons_cons]
            rcases xs with _ | ⟨z, zs⟩
            · exact absurd rfl hxs_ne
            · exact hlast
        · rw [if_neg hc] at hif
          exact Option.noConfusion hif

theorem chain_mem_fix {poss : List Nat} {nbrs G : List (Nat × Nat)}
    (hfix : groupedStep nbrs G = G)
    (hNn : ∀ a b : Nat, a ∈ poss → b ∈ poss → are_neighbors a b = true → (a, b) ∈ nbrs)
    (b : Nat) :
    ∀ (xs : List Nat) (a : Nat), a ≠ b →
      List.Chain (fun x y => are_neighbors x y = true) a xs →
      (∀ x ∈ a :: xs, x ∈ poss) →
      (∀ x ∈ a :: xs.dropLast, x ≠ b) →
      (a :: xs).getLast? = some b → (a, b) ∈ G := by
  intro xs
  induction xs with
  | nil =>
    intro a hne _ _ _ hlast
    simp only [List.getLast?_singleton, Option.some.injEq] at hlast
    exact absurd hlast hne
  | cons c rest ih =>
    intro a hne hchain hmem hdrop hlast
    rcases List.chain_cons.mp hchain with ⟨hac, hcrest⟩
    have ha : a ∈ poss := hmem a (List.mem_cons_self a _)
    have hc : c ∈ poss := hmem c (List.mem_cons_of_mem a (List.mem_cons_self c _))
    rcases rest with _ | ⟨d, rest2⟩
    · have hcb : c = b := by
        rw [List.getLast?_cons_cons, List.getLast?_singleton,
          Option.some.injEq] at hlast
        exact hlast
      subst hcb
      exact mem_of_step_eq_nbrs hfix (hNn a c ha hc hac)
    · have hcb : c ≠ b := by
        refine hdrop c ?_
        rw [show (c :: d :: rest2).dropLast = c :: (d :: rest2).dropLast from rfl]
        exact List.mem_cons_of_mem a (List.mem_cons_self c _)
      have hsub : (c, b) ∈ G := by
        refine ih c hcb hcrest ?_ ?_ ?_
        · intro x hx
          exact hmem x (List.mem_cons_of_mem a hx)
        · intro x hx
          refine hdrop x ?_
          rw [show (c :: d :: rest2).dropLast = c :: (d :: rest2).dropLast from rfl]
          exact List.mem_cons_of_mem a hx
        · rw [List.getLast?_cons_cons] at hlast
          exact hlast
      exact mem_of_step_eq_join hfix (hNn a c ha hc hac) hsub hne

theorem hasPath_trim {poss : List Nat} (b : Nat) :
    ∀ (xs : List Nat) (a : Nat), a ≠ b →
      List.Chain (fun x y => are_neighbors x y = true) a xs →
      (∀ x ∈ a :: xs, x ∈ poss) → b ∈ xs →
      ∃ ys, ys ≠ [] ∧ List.Chain (fun x y => are_neighbors x y = true) a ys ∧
        (∀ x ∈ a :: ys, x ∈ poss) ∧ (a :: ys).getLast? = some b ∧
        (∀ x ∈ a :: ys.dropLast, x ≠ b) := by
  intro xs
  induction xs with
  | nil => intro a _ _ _ hb; exact absurd hb (List.not_mem_nil b)
  | cons c rest ih =>
    intro a hne hchain hmem hb
    rcases List.chain_cons.mp hchain with ⟨hac, hcrest⟩
    by_cases hcb : c = b
    · refine ⟨[b], by simp, ?_, ?_, by simp, ?_⟩
      · rw [← hcb]
        exact List.Chain.cons hac List.Chain.nil
      · intro x hx
        rcases List.mem_cons.mp hx with rfl | hx2
        · exact hmem x (List.mem_cons_self x _)
        · rcases List.mem_cons.mp hx2 with rfl | hx3
          · rw [← hcb]
            exact hmem c (List.mem_cons_of_mem a (List.mem_cons_self c _))
          · exact absurd hx3 (List.not_mem_nil x)
      · intro x hx
        simp only [List.dropLast_single] at hx
        rcases List.mem_cons.mp hx with rfl | hx2
        · exact hne
        · exact absurd hx2 (List.not_mem_nil x)
    · have hbrest : b ∈ rest := by
        rcases List.mem_cons.mp hb with h | h
        · exact absurd h.symm hcb
        · exact h
      obtain ⟨ys2, hys_ne, hchain2, hmem2, hlast2, hdrop2⟩ := ih c hcb hcrest
        (fun x hx => hmem x (List.mem_cons_of_mem a hx)) hbrest
      refine ⟨c :: ys2, by simp, List.Chain.cons hac hchain2, ?_, ?_, ?_⟩
      · intro x hx
        rcases List.mem_cons.mp hx with rfl | hx2
        · exact hmem x (List.mem_cons_self x _)
        · exact hmem2 x hx2
      · rw [List.getLast?_cons_cons]
        exact hlast2
      · intro x hx
        have hdl : (c :: ys2).dropLast = c :: ys2.dropLast := by
          rcases ys2 with _ | ⟨y, t⟩
          · exact absurd rfl hys_ne
          · rfl
        rw [hdl] at hx
        rcases List.mem_cons.mp hx with rfl | hx2
        · exact hne
        · exact hdrop2 x hx2

theorem mem_orderedPairs_of {l : List Nat} {x y : Nat} (hx : x ∈ l) (hy : y ∈ l)
    (hne : x ≠ y) : (x, y) ∈ orderedPairs l := by
  obtain ⟨i, hi, rfl⟩ := List.mem_iff_getElem.mp hx
  obtain ⟨j, hj, rfl⟩ := List.mem_iff_getElem.mp hy
  rw [orderedPairs, List.mem_flatMap]
  refine ⟨i, List.mem_range.mpr hi, ?_⟩
  rw [List.mem_filterMap]
  refine ⟨j, List.mem_range.mpr hj, ?_⟩
  have hij : i ≠ j := by rintro rfl; exact hne rfl
  rw [if_pos hij, List.getD_eq_getElem l 0 hi, List.getD_eq_getElem l 0 hj]

theorem of_mem_orderedPairs {l : List Nat} (hnd : l.Nodup) {x y : Nat}
    (h : (x, y) ∈ orderedPairs l) : x ∈ l ∧ y ∈ l ∧ x ≠ y := by
  rw [orderedPairs, List.mem_flatMap] at h
  obtain ⟨i, hi, h2⟩ := h
  rw [List.mem_filterMap] at h2
  obtain ⟨j, hj, hif⟩ := h2
  rw [List.mem_range] at hi hj
  by_cases hij : i ≠ j
  · rw [if_pos hij] at hif
    have hx := congrArg Prod.fst (Option.some.inj hif)
    have hy := congrArg Prod.snd (Option.some.inj hif)
    simp only at hx hy
    rw [List.getD_eq_getElem l 0 hi] at hx
    rw [List.getD_eq_getElem l 0 hj] at hy
    subst hx
    subst hy
    refine ⟨List.getElem_mem hi, List.getElem_mem hj, ?_⟩
    intro hEq
    exact hij ((List.Nodup.getElem_inj_iff hnd).mp hEq)
  · rw [if_neg hij] at hif
    exact Option.noConfusion hif

/-- C3 (amended): for every list of positions without duplicates,
`are_grouped` returns `true` iff for every ordered pair `(a, b)` of elements
with `a ≠ b` there is a sequence `a = x₀, …, xn = b` inside the list whose
consecutive members are neighbors. -/
theorem c3_grouped_iff_connected (poss : List Nat) (hnd : poss.Nodup) :
    are_grouped poss = true ↔ ∀ a ∈ poss, ∀ b ∈ poss, a ≠ b → HasPath poss a b := by
  have hN : ∀ e ∈ neighborPairs poss,
      e.1 ∈ poss ∧ e.2 ∈ poss ∧ are_neighbors e.1 e.2 = true :=
    fun e he => mem_neighborPairs.mp he
  have hN2 : ∀ e ∈ neighborPairs poss, e.1 ∈ poss ∧ e.2 ∈ poss :=
    fun e he => ⟨(hN e he).1, (hN e he).2.1⟩
  rw [are_grouped, List.all_eq_true]
  constructor
  · intro h a ha b hb hne
    have hmem := h (a, b) (mem_orderedPairs_of ha hb hne)
    rw [List.contains, List.elem_iff] at hmem
    exact groupedFix_sound hN _ (a, b) hmem
  · rintro h ⟨a, b⟩ hq
    obtain ⟨ha, hb, hne⟩ := of_mem_orderedPairs hnd hq
    obtain ⟨xs, hxs_ne, hchain, hmem, hlast⟩ := h a ha b hb hne
    have hbxs : b ∈ xs := by
      rcases xs with _ | ⟨c, t⟩
      · exact absurd rfl hxs_ne
      · rw [List.getLast?_cons_cons] at hlast
        exact List.mem_of_mem_getLast? hlast
    obtain ⟨ys, hys_ne, hchain2, hmem2, hlast2, hdrop2⟩ :=
      hasPath_trim b xs a hne hchain hmem hbxs
    have hfix := @groupedFix_closed poss (neighborPairs poss) hN2
    have hG := chain_mem_fix hfix
      (fun a2 b2 ha2 hb2 hn2 => mem_neighborPairs.mpr ⟨ha2, hb2, hn2⟩)
      b ys a hne hchain2 hmem2 hdrop2 hlast2
    rw [List.contains, List.elem_iff]
    exact hG

theorem c3_grouped_iff_connected_witness :
    are_grouped [1, 4] = true ↔ ∀ a ∈ [1, 4], ∀ b ∈ [1, 4], a ≠ b → HasPath [1, 4] a b :=
  c3_grouped_iff_connected [1, 4] (by decide)

/-- C3 counterexample: the claim as stated, quantified over every list, fails
for the list `[0, 0]`: `are_grouped [0, 0] = false` (the datalog closure never
derives `Grouped(0, 0)`, yet `permutations(2)` demands it for the two equal
entries), while the connectivity condition over pairs `a ≠ b` is vacuously
true. -/
theorem c3_counterexample :
    ¬ (are_grouped [0, 0] = true ↔
        ∀ a ∈ [0, 0], ∀ b ∈ [0, 0], a ≠ b → HasPath [0, 0] a b) := by
  intro h
  have h2 : ∀ a ∈ [0, 0], ∀ b ∈ [0, 0], a ≠ b → HasPath [0, 0] a b := by
    intro a ha b hb hne
    rcases List.mem_cons.mp ha with rfl | ha2
    · rcases List.mem_cons.mp hb with rfl | hb2
      · exact absurd rfl hne
      · rcases List.mem_cons.mp hb2 with rfl | hb3
        · exact absurd rfl hne
        · exact absurd hb3 (List.not_mem_nil b)
    · rcases List.mem_cons.mp ha2 with rfl | ha3
      · rcases List.mem_cons.mp hb with rfl | hb2
        · exact absurd rfl hne
        · rcases List.mem_cons.mp hb2 with rfl | hb3
          · exact absurd rfl hne
          · exact absurd hb3 (List.not_mem_nil b)
      · exact absurd ha3 (List.not_mem_nil a)
  have h3 := h.mpr h2
  have h4 : are_grouped [0, 0] = false := by decide
  rw [h3] at h4
  exact Bool.noConfusion h4

/-- C10: for every list with fewer than two elements (the empty list and
every singleton), `are_grouped` returns `true`: `permutations(2)` yields no
pair to check. -/
theorem c10_degenerate_groups (poss : List Nat) (h : poss.length < 2) :
    are_grouped poss = true := by
  rcases poss with _ | ⟨x, rest⟩
  · decide
  · rcases rest with _ | ⟨y, rest2⟩
    · rw [are_grouped, List.all_eq_true]
      rintro ⟨a, b⟩ hq
      rw [orderedPairs, List.mem_flatMap] at hq
      obtain ⟨i, hi, h2⟩ := hq
      rw [List.mem_filterMap] at h2
      obtain ⟨j, hj, hif⟩ := h2
      rw [List.mem_range] at hi hj
      have hi0 : i = 0 := by simpa using hi
      have hj0 : j = 0 := by simpa using hj
      subst hi0
      subst hj0
      rw [if_neg (by omega)] at hif
      exact Option.noConfusion hif
    · exfalso
      simp only [List.length_cons] at h
      omega

theorem c10_degenerate_groups_witness : are_grouped [5] = true :=
  c10_degenerate_groups [5] (by decide)

theorem neighbors_tip0 (k : Nat) (hk : 1 ≤ k) :
    neighboring_positions (ring_offset k) =
      [ring_offset (k + 1), ring_offset (k + 1) + 1, ring_offset k + 1,
       ring_offset (k - 1), ring_offset (k + 1) - 1, ring_offset (k + 2) - 1] := by
  have hsucc := ring_offset_succ k hk
  have hr : ring (ring_offset k) = k := by
    have h := ring_of_ring_offset_add k 0 hk (by omega)
    simpa using h
  have hedge : ring_edge_index (ring_offset k) = some 0 := by
    have h := ring_edge_index_eq k 0 0 hk (by omega) hk
    simpa using h
  have htip : is_at_ring_tip (ring_offset k) = true := by
    have h := is_at_ring_tip_tip k 0 hk (by omega)
    simpa using h
  have hrnp : ring_neighboring_positions (ring_offset k)
      = (ring_offset (k + 1) - 1, ring_offset k + 1) := by
    have h := rnp_eq k 0 hk (by omega)
    simpa using h
  have hrnp2 : ring_neighboring_positions (ring_offset (k + 1))
      = (ring_offset (k + 2) - 1, ring_offset (k + 1) + 1) := by
    have h := rnp_eq (k + 1) 0 (by omega) (by omega)
    simpa using h
  have hc1 : ¬ (k = 0) := by omega
  have hc2 : ¬ (ring_offset k = ring_offset (k + 1) - 1) := by omega
  simp only [neighboring_positions, hr, hedge, htip, Option.getD_some,
    if_neg hc1, if_neg hc2, if_true, Nat.mul_zero, Nat.add_zero, hrnp, hrnp2,
    rotr_zero]

theorem neighbors_tip (k e : Nat) (hk : 1 ≤ k) (he1 : 1 ≤ e) (he5 : e ≤ 5)
    (hne : ¬(k = 1 ∧ e = 5)) :
    neighboring_positions (ring_offset k + e * k) =
      rotr [ring_offset (k + 1) + (k + 1) * e, ring_offset (k + 1) + (k + 1) * e + 1,
        ring_offset k + e * k + 1, ring_offset (k - 1) + (k - 1) * e,
        ring_offset k + e * k - 1, ring_offset (k + 1) + (k + 1) * e - 1] e := by
  have hsucc := ring_offset_succ k hk
  have hsucc2 := ring_offset_succ (k + 1) (by omega)
  have hek5 : e * k ≤ 5 * k := Nat.mul_le_mul_right k he5
  have hekk : 1 * k ≤ e * k := Nat.mul_le_mul_right k he1
  have hU5 : (k + 1) * e ≤ (k + 1) * 5 := Nat.mul_le_mul_left (k + 1) he5
  have hU1 : (k + 1) * 1 ≤ (k + 1) * e := Nat.mul_le_mul_left (k + 1) he1
  have hc2 : ¬ (ring_offset k + e * k = ring_offset (k + 1) - 1) := by
    rcases Nat.lt_or_ge k 2 with h2 | h2
    · have hk1 : k = 1 := by omega
      subst hk1
      omega
    · omega
  have hr : ring (ring_offset k + e * k) = k :=
    ring_of_ring_offset_add k (e * k) hk (by omega)
  have hedge : ring_edge_index (ring_offset k + e * k) = some e := by
    have h := ring_edge_index_eq k e 0 hk he5 hk
    simpa using h
  have htip : is_at_ring_tip (ring_offset k + e * k) = true := is_at_ring_tip_tip k e hk he5
  have hrnp : ring_neighboring_positions (ring_offset k + e * k)
      = (ring_offset k + e * k - 1, ring_offset k + e * k + 1) := by
    have h := rnp_eq k (e * k) hk (by omega)
    rw [if_neg (by omega), if_neg (by omega)] at h
    exact h
  have hrnp2 : ring_neighboring_positions (ring_offset (k + 1) + (k + 1) * e)
      = (ring_offset (k + 1) + (k + 1) * e - 1, ring_offset (k + 1) + (k + 1) * e + 1) := by
    have h := rnp_eq (k + 1) ((k + 1) * e) (by omega) (by omega)
    rw [if_neg (by omega), if_neg (by omega)] at h
    exact h
  have hc1 : ¬ (k = 0) := by omega
  simp only [neighboring_positions, hr, hedge, htip, Option.getD_some,
    if_neg hc1, if_neg hc2, if_true, hrnp, hrnp2]

theorem neighbors_nontip (k e t : Nat) (hk : 2 ≤ k) (he : e ≤ 5) (ht1 : 1 ≤ t)
    (ht2 : t < k) (hne : ¬(e = 5 ∧ t = k - 1)) :
    neighboring_positions (ring_offset k + (e * k + t)) =
      rotr [ring_offset (k + 1) + e * (k + 1) + t,
        ring_offset (k + 1) + e * (k + 1) + t + 1,
        ring_offset k + (e * k + t) + 1,
        ring_offset (k - 1) + e * (k - 1) + t - 1 + 1,
        ring_offset (k - 1) + e * (k - 1) + t - 1,
        ring_offset k + (e * k + t) - 1] e := by
  have hsucc := ring_offset_succ k (by omega)
  have hek5 : e * k ≤ 5 * k := Nat.mul_le_mul_right k he
  have hc2 : ¬ (ring_offset k + (e * k + t) = ring_offset (k + 1) - 1) := by
    by_cases he5 : e = 5
    · subst he5
      omega
    · have h4 : e * k ≤ 4 * k := Nat.mul_le_mul_right k (by omega)
      omega
  have hj6 : e * k + t < 6 * k := by omega
  have hr : ring (ring_offset k + (e * k + t)) = k :=
    ring_of_ring_offset_add k (e * k + t) (by omega) hj6
  have hedge : ring_edge_index (ring_offset k + (e * k + t)) = some e :=
    ring_edge_index_eq k e t (by omega) he ht2
  have hnt : is_at_ring_tip (ring_offset k + (e * k + t)) = false :=
    is_at_ring_tip_nontip k e t (by omega) he ht1 ht2
  have hrnp : ring_neighboring_positions (ring_offset k + (e * k + t))
      = (ring_offset k + (e * k + t) - 1, ring_offset k + (e * k + t) + 1) := by
    have h := rnp_eq k (e * k + t) (by omega) hj6
    rw [if_neg (by omega), if_neg (by omega)] at h
    exact h
  simp only [neighboring_positions, hr, hedge, hnt, Option.getD_some,
    if_neg (show ¬ (k = 0) from by omega), if_neg hc2, Bool.false_eq_true, if_false,
    hrnp, Nat.add_sub_cancel_left]

theorem neighbors_last (k : Nat) (hk : 2 ≤ k) :
    neighboring_positions (ring_offset (k + 1) - 1) =
      rotr [ring_offset (k + 2) - 2, ring_offset (k + 2) - 1, ring_offset k,
        ring_offset (k - 1), ring_offset k - 1, ring_offset (k + 1) - 1 - 1] 5 := by
  have hsucc := ring_offset_succ k (by omega)
  have hsucc2 := ring_offset_succ (k + 1) (by omega)
  rw [show k + 1 + 1 = k + 2 from rfl] at hsucc2
  have hro1 : 1 ≤ ring_offset k := by
    rcases k with _ | m
    · omega
    · simp [ring_offset]
  have hpos : ring_offset (k + 1) - 1 = ring_offset k + (5 * k + (k - 1)) := by omega
  rw [hpos]
  have hj6 : 5 * k + (k - 1) < 6 * k := by omega
  have hr : ring (ring_offset k + (5 * k + (k - 1))) = k :=
    ring_of_ring_offset_add k _ (by omega) hj6
  have hedge : ring_edge_index (ring_offset k + (5 * k + (k - 1))) = some 5 :=
    ring_edge_index_eq k 5 (k - 1) (by omega) (by omega) (by omega)
  have hnt : is_at_ring_tip (ring_offset k + (5 * k + (k - 1))) = false :=
    is_at_ring_tip_nontip k 5 (k - 1) (by omega) (by omega) (by omega) (by omega)
  have hc2 : ring_offset k + (5 * k + (k - 1)) = ring_offset (k + 1) - 1 := by omega
  have hrnp : ring_neighboring_positions (ring_offset k + (5 * k + (k - 1)))
      = (ring_offset k + (5 * k + (k - 1)) - 1, ring_offset k) := by
    have h := rnp_eq k (5 * k + (k - 1)) (by omega) hj6
    rw [if_neg (by omega), if_pos (by omega)] at h
    exact h
  simp only [neighboring_positions, hr, hedge, hnt, Option.getD_some,
    if_neg (show ¬ (k = 0) from by omega), if_pos hc2, Bool.false_eq_true, if_false,
    hrnp, Nat.add_sub_cancel_left]
  refine congrArg (fun l => rotr l 5) ?_
  have h1 : ring_offset (k + 1) + 5 * (k + 1) + (k - 1) = ring_offset (k + 2) - 2 := by
    omega
  have h2 : ring_offset (k + 1) + 5 * (k + 1) + (k - 1) + 1 = ring_offset (k + 2) - 1 := by
    omega
  rw [h2, h1]

theorem neighbors_six : neighboring_positions 6 = [18, 1, 0, 5, 16, 17] := by decide

theorem symm_tip0 (k : Nat) (hk : 1 ≤ k) (b : Nat)
    (h : b ∈ neighboring_positions (ring_offset k)) :
    ring_offset k ∈ neighboring_positions b := by
  have hsucc := ring_offset_succ k hk
  have hsucc2 := ring_offset_succ (k + 1) (by omega)
  rw [neighbors_tip0 k hk] at h
  simp only [List.mem_cons, List.not_mem_nil, or_false] at h
  rcases h with rfl | rfl | rfl | rfl | rfl | rfl
  · rw [neighbors_tip0 (k + 1) (by omega)]
    simp only [List.mem_cons, Nat.add_sub_cancel]
    tauto
  · rw [show ring_offset (k + 1) + 1 = ring_offset (k + 1) + (0 * (k + 1) + 1) from by omega,
      neighbors_nontip (k + 1) 0 1 (by omega) (by omega) (by omega) (by omega) (by omega),
      mem_rotr]
    simp only [List.mem_cons, Nat.add_sub_cancel]
    omega
  · rcases Nat.lt_or_ge k 2 with hk2 | hk2
    · have hk1 : k = 1 := by omega
      subst hk1
      decide
    · rw [show ring_offset k + 1 = ring_offset k + (0 * k + 1) from by omega,
        neighbors_nontip k 0 1 hk2 (by omega) (by omega) (by omega) (by omega),
        mem_rotr]
      simp only [List.mem_cons]
      omega
  · rcases Nat.lt_or_ge k 2 with hk2 | hk2
    · have hk1 : k = 1 := by omega
      subst hk1
      decide
    · rw [neighbors_tip0 (k - 1) (by omega)]
      simp only [List.mem_cons, show k - 1 + 1 = k from by omega]
      tauto
  · rcases Nat.lt_or_ge k 2 with hk2 | hk2
    · have hk1 : k = 1 := by omega
      subst hk1
      decide
    · rw [neighbors_last k hk2, mem_rotr]
      simp only [List.mem_cons]
      tauto
  · rw [show ring_offset (k + 2) - 1 = ring_offset (k + 1 + 1) - 1 from rfl,
      neighbors_last (k + 1) (by omega), mem_rotr]
    simp only [List.mem_cons, Nat.add_sub_cancel]
    tauto

theorem symm_tip (k e : Nat) (hk : 1 ≤ k) (he1 : 1 ≤ e) (he5 : e ≤ 5)
    (hne : ¬(k = 1 ∧ e = 5)) (b : Nat)
    (h : b ∈ neighboring_positions (ring_offset k + e * k)) :
    ring_offset k + e * k ∈ neighboring_positions b := by
  rcases Nat.lt_or_ge k 2 with hk2 | hk2
  · have hk1 : k = 1 := by omega
    subst hk1
    have he4 : e ≤ 4 := by omega
    interval_cases e
    · have hl : neighboring_positions (ring_offset 1 + 1 * 1) = [8, 9, 10, 3, 0, 1] := by
        decide
      rw [hl] at h
      simp only [List.mem_cons, List.not_mem_nil, or_false] at h
      rcases h with rfl | rfl | rfl | rfl | rfl | rfl <;> decide
    · have hl : neighboring_positions (ring_offset 1 + 2 * 1) = [2, 10, 11, 12, 4, 0] := by
        decide
      rw [hl] at h
      simp only [List.mem_cons, List.not_mem_nil, or_false] at h
      rcases h with rfl | rfl | rfl | rfl | rfl | rfl <;> decide
    · have hl : neighboring_positions (ring_offset 1 + 3 * 1) = [0, 3, 12, 13, 14, 5] := by
        decide
      rw [hl] at h
      simp only [List.mem_cons, List.not_mem_nil, or_false] at h
      rcases h with rfl | rfl | rfl | rfl | rfl | rfl <;> decide
    · have hl : neighboring_positions (ring_offset 1 + 4 * 1) = [6, 0, 4, 14, 15, 16] := by
        decide
      rw [hl] at h
      simp only [List.mem_cons, List.not_mem_nil, or_false] at h
      rcases h with rfl | rfl | rfl | rfl | rfl | rfl <;> decide
  · have hsucc := ring_offset_succ k hk
    have hsucc2 := ring_offset_succ (k + 1) (by omega)
    have hm1 : (k + 1) * e = e * (k + 1) := Nat.mul_comm _ _
    have hm2 : k * e = e * k := Nat.mul_comm _ _
    have hm3 : (k - 1) * e = e * (k - 1) := Nat.mul_comm _ _
    have hm4 : (e - 1) * k = e * k - 1 * k := Nat.sub_mul e 1 k
    have hm5 : (e - 1) * (k + 1) = e * (k + 1) - 1 * (k + 1) := Nat.sub_mul e 1 (k + 1)
    have hekk : 1 * k ≤ e * k := Nat.mul_le_mul_right k he1
    have hek5 : e * k ≤ 5 * k := Nat.mul_le_mul_right k he5
    have huk1 : 1 * (k + 1) ≤ e * (k + 1) := Nat.mul_le_mul_right (k + 1) he1
    have huk5 : e * (k + 1) ≤ 5 * (k + 1) := Nat.mul_le_mul_right (k + 1) he5
    rw [neighbors_tip k e hk he1 he5 hne, mem_rotr] at h
    simp only [List.mem_cons, List.not_mem_nil, or_false] at h
    rcases h with rfl | rfl | rfl | rfl | rfl | rfl
    · rw [show ring_offset (k + 1) + (k + 1) * e = ring_offset (k + 1) + e * (k + 1) from
          by omega,
        neighbors_tip (k + 1) e (by omega) he1 he5 (by omega), mem_rotr]
      simp only [List.mem_cons, Nat.add_sub_cancel]
      omega
    · rw [show ring_offset (k + 1) + (k + 1) * e + 1 = ring_offset (k + 1) + (e * (k + 1) + 1)
          from by omega,
        neighbors_nontip (k + 1) e 1 (by omega) he5 (by omega) (by omega) (by omega),
        mem_rotr]
      simp only [List.mem_cons, Nat.add_sub_cancel]
      tauto
    · by_cases hsp : e = 5 ∧ k = 2
      · obtain ⟨rfl, rfl⟩ := And.intro hsp.2 hsp.1
        decide
      · rw [show ring_offset k + e * k + 1 = ring_offset k + (e * k + 1) from by omega,
          neighbors_nontip k e 1 hk2 he5 (by omega) (by omega) (by omega), mem_rotr]
        simp only [List.mem_cons]
        omega
    · by_cases hsp : e = 5 ∧ k = 2
      · obtain ⟨rfl, rfl⟩ := And.intro hsp.2 hsp.1
        decide
      · rw [show ring_offset (k - 1) + (k - 1) * e = ring_offset (k - 1) + e * (k - 1) from
            by omega,
          neighbors_tip (k - 1) e (by omega) he1 he5 (by omega), mem_rotr]
        simp only [List.mem_cons, show k - 1 + 1 = k from by omega]
        omega
    · rw [show ring_offset k + e * k - 1 = ring_offset k + ((e - 1) * k + (k - 1)) from
          by omega,
        neighbors_nontip k (e - 1) (k - 1) hk2 (by omega) (by omega) (by omega) (by omega),
        mem_rotr]
      simp only [List.mem_cons]
      omega
    · rw [show ring_offset (k + 1) + (k + 1) * e - 1
            = ring_offset (k + 1) + ((e - 1) * (k + 1) + k) from by omega,
        neighbors_nontip (k + 1) (e - 1) k (by omega) (by omega) (by omega) (by omega)
          (by omega),
        mem_rotr]
      simp only [List.mem_cons, Nat.add_sub_cancel]
      omega

theorem symm_nontip (k e t : Nat) (hk : 2 ≤ k) (he : e ≤ 5) (ht1 : 1 ≤ t) (ht2 : t < k)
    (hne : ¬(e = 5 ∧ t = k - 1)) (b : Nat)
    (h : b ∈ neighboring_positions (ring_offset k + (e * k + t))) :
    ring_offset k + (e * k + t) ∈ neighboring_positions b := by
  have hsucc := ring_offset_succ k (by omega)
  have hsucc2 := ring_offset_succ (k + 1) (by omega)
  have hm2 : k * e = e * k := Nat.mul_comm _ _
  have hekk : 1 * k ≤ e * k ∨ e = 0 := by
    rcases Nat.eq_zero_or_pos e with h0 | h0
    · right; exact h0
    · left; exact Nat.mul_le_mul_right k h0
  have hek5 : e * k ≤ 5 * k := Nat.mul_le_mul_right k he
  have hm6 : e * (k - 1) + e = e * k := by
    rcases k with _ | m
    · omega
    · rw [Nat.succ_sub_one, Nat.mul_succ]
  have hm7 : e * (k + 1) = e * k + e := Nat.mul_succ e k
  rw [neighbors_nontip k e t hk he ht1 ht2 hne, mem_rotr] at h
  simp only [List.mem_cons, List.not_mem_nil, or_false] at h
  rcases h with rfl | rfl | rfl | rfl | rfl | rfl
  · rw [show ring_offset (k + 1) + e * (k + 1) + t = ring_offset (k + 1) + (e * (k + 1) + t)
        from by omega,
      neighbors_nontip (k + 1) e t (by omega) he ht1 (by omega) (by omega), mem_rotr]
    simp only [List.mem_cons, Nat.add_sub_cancel]
    omega
  · rw [show ring_offset (k + 1) + e * (k + 1) + t + 1
          = ring_offset (k + 1) + (e * (k + 1) + (t + 1)) from by omega,
      neighbors_nontip (k + 1) e (t + 1) (by omega) he (by omega) (by omega) (by omega),
      mem_rotr]
    simp only [List.mem_cons, Nat.add_sub_cancel]
    omega
  · by_cases htk : t + 1 = k
    · have he4 : e ≤ 4 := by omega
      rw [show ring_offset k + (e * k + t) + 1 = ring_offset k + (e + 1) * k from by
          rw [Nat.succ_mul]; omega,
        neighbors_tip k (e + 1) (by omega) (by omega) (by omega) (by omega), mem_rotr]
      simp only [List.mem_cons]
      have hb1 : (e + 1) * k = e * k + k := Nat.succ_mul e k
      omega
    · by_cases hsp : e = 5 ∧ t + 1 = k - 1
      · rw [show ring_offset k + (e * k + t) + 1 = ring_offset (k + 1) - 1 from by
            obtain ⟨rfl, h2⟩ := hsp
            omega,
          neighbors_last k hk, mem_rotr]
        simp only [List.mem_cons]
        obtain ⟨rfl, h2⟩ := hsp
        omega
      · rw [show ring_offset k + (e * k + t) + 1 = ring_offset k + (e * k + (t + 1)) from
            by omega,
          neighbors_nontip k e (t + 1) hk he (by omega) (by omega) (by omega), mem_rotr]
        simp only [List.mem_cons]
        omega
  · by_cases htk : t = k - 1
    · have he4 : e ≤ 4 := by omega
      rcases Nat.lt_or_ge k 3 with hk3 | hk3
      · have hk2 : k = 2 := by omega
        subst hk2
        have ht1' : t = 1 := by omega
        subst ht1'
        interval_cases e <;> decide
      · rw [show ring_offset (k - 1) + e * (k - 1) + t - 1 + 1
              = ring_offset (k - 1) + (e + 1) * (k - 1) from by
            have hb2 : (e + 1) * (k - 1) = e * (k - 1) + (k - 1) := Nat.succ_mul e (k - 1)
            omega,
          neighbors_tip (k - 1) (e + 1) (by omega) (by omega) (by omega) (by omega),
          mem_rotr]
        simp only [List.mem_cons, show k - 1 + 1 = k from by omega]
        have hb3 : k * (e + 1) = k * e + k := Nat.mul_succ k e
        omega
    · by_cases hsp : e = 5 ∧ t = k - 2
      · rw [show ring_offset (k - 1) + e * (k - 1) + t - 1 + 1
              = ring_offset (k - 1 + 1) - 1 from by
            obtain ⟨rfl, h2⟩ := hsp
            have hs3 := ring_offset_succ (k - 1) (by omega)
            omega,
          neighbors_last (k - 1) (by omega), mem_rotr]
        simp only [List.mem_cons, show k - 1 + 1 = k from by omega,
          show k - 1 + 2 = k + 1 from by omega]
        obtain ⟨rfl, h2⟩ := hsp
        omega
      · rw [show ring_offset (k - 1) + e * (k - 1) + t - 1 + 1
              = ring_offset (k - 1) + (e * (k - 1) + t) from by omega,
          neighbors_nontip (k - 1) e t (by omega) he ht1 (by omega) (by omega), mem_rotr]
        simp only [List.mem_cons, show k - 1 + 1 = k from by omega]
        omega
  · by_cases ht1' : t = 1
    · subst ht1'
      rcases Nat.eq_zero_or_pos e with rfl | he1
      · rw [show ring_offset (k - 1) + 0 * (k - 1) + 1 - 1 = ring_offset (k - 1) from by omega,
          neighbors_tip0 (k - 1) (by omega)]
        simp only [List.mem_cons, show k - 1 + 1 = k from by omega]
        omega
      · have hne2 : ¬(k - 1 = 1 ∧ e = 5) := by omega
        rw [show ring_offset (k - 1) + e * (k - 1) + 1 - 1
              = ring_offset (k - 1) + e * (k - 1) from by omega,
          neighbors_tip (k - 1) e (by omega) he1 he hne2, mem_rotr]
        simp only [List.mem_cons, show k - 1 + 1 = k from by omega]
        omega
    · rw [show ring_offset (k - 1) + e * (k - 1) + t - 1
            = ring_offset (k - 1) + (e * (k - 1) + (t - 1)) from by omega,
        neighbors_nontip (k - 1) e (t - 1) (by omega) he (by omega) (by omega) (by omega),
        mem_rotr]
      simp only [List.mem_cons, show k - 1 + 1 = k from by omega]
      omega
  · by_cases ht1' : t = 1
    · subst ht1'
      rcases Nat.eq_zero_or_pos e with rfl | he1
      · rw [show ring_offset k + (0 * k + 1) - 1 = ring_offset k from by omega,
          neighbors_tip0 k (by omega)]
        simp only [List.mem_cons]
        omega
      · rw [show ring_offset k + (e * k + 1) - 1 = ring_offset k + e * k from by omega,
          neighbors_tip k e (by omega) he1 he (by omega), mem_rotr]
        simp only [List.mem_cons]
        omega
    · rw [show ring_offset k + (e * k + t) - 1 = ring_offset k + (e * k + (t - 1)) from
          by omega,
        neighbors_nontip k e (t - 1) hk he (by omega) (by omega) (by omega), mem_rotr]
      simp only [List.mem_cons]
      omega

theorem symm_last (k : Nat) (hk : 2 ≤ k) (b : Nat)
    (h : b ∈ neighboring_positions (ring_offset (k + 1) - 1)) :
    ring_offset (k + 1) - 1 ∈ neighboring_positions b := by
  have hsucc := ring_offset_succ k (by omega)
  have hsucc2 := ring_offset_succ (k + 1) (by omega)
  rw [show k + 1 + 1 = k + 2 from rfl] at hsucc2
  have hro1 : 1 ≤ ring_offset k := by
    rcases k with _ | m
    · omega
    · simp [ring_offset]
  rw [neighbors_last k hk, mem_rotr] at h
  simp only [List.mem_cons, List.not_mem_nil, or_false] at h
  rcases h with rfl | rfl | rfl | rfl | rfl | rfl
  · rw [show ring_offset (k + 2) - 2 = ring_offset (k + 1) + (5 * (k + 1) + (k - 1)) from
        by omega,
      neighbors_nontip (k + 1) 5 (k - 1) (by omega) (by omega) (by omega) (by omega)
        (by omega),
      mem_rotr]
    simp only [List.mem_cons, Nat.add_sub_cancel]
    omega
  · rw [show ring_offset (k + 2) - 1 = ring_offset (k + 1 + 1) - 1 from rfl,
      neighbors_last (k + 1) (by omega), mem_rotr]
    simp only [List.mem_cons, Nat.add_sub_cancel]
    tauto
  · rw [neighbors_tip0 k (by omega)]
    simp only [List.mem_cons]
    tauto
  · rw [neighbors_tip0 (k - 1) (by omega)]
    simp only [List.mem_cons, show k - 1 + 1 = k from by omega,
      show k - 1 + 2 = k + 1 from by omega]
    tauto
  · rcases Nat.lt_or_ge k 3 with hk3 | hk3
    · have hk2 : k = 2 := by omega
      subst hk2
      decide
    · rw [show ring_offset k - 1 = ring_offset (k - 1 + 1) - 1 from by
          rw [show k - 1 + 1 = k from by omega],
        neighbors_last (k - 1) (by omega), mem_rotr]
      simp only [List.mem_cons, show k - 1 + 1 = k from by omega,
        show k - 1 + 2 = k + 1 from by omega]
      tauto
  · rcases Nat.lt_or_ge k 3 with hk3 | hk3
    · have hk2 : k = 2 := by omega
      subst hk2
      decide
    · rw [show ring_offset (k + 1) - 1 - 1 = ring_offset k + (5 * k + (k - 2)) from by omega,
        neighbors_nontip k 5 (k - 2) (by omega) (by omega) (by omega) (by omega) (by omega),
        mem_rotr]
      simp only [List.mem_cons]
      omega

theorem mem_neighbors_comm {a b : Nat} (h : b ∈ neighboring_positions a) :
    a ∈ neighboring_positions b := by
  rcases Nat.eq_zero_or_pos a with rfl | ha
  · have h0 : neighboring_positions 0 = [1, 2, 3, 4, 5, 6] := by decide
    rw [h0] at h
    simp only [List.mem_cons, List.not_mem_nil, or_false] at h
    rcases h with rfl | rfl | rfl | rfl | rfl | rfl <;> decide
  · obtain ⟨k, j, hk, hj, rfl, hring⟩ := exists_ring_decomp a ha
    have hkpos : 0 < k := hk
    obtain ⟨e, t, he5, ht, rfl⟩ : ∃ e t, e ≤ 5 ∧ t < k ∧ j = e * k + t := by
      refine ⟨j / k, j % k, ?_, Nat.mod_lt j hkpos, ?_⟩
      · by_contra hcon
        push_neg at hcon
        have h6 : k * 6 ≤ k * (j / k) := Nat.mul_le_mul_left k hcon
        have hdm := Nat.div_add_mod j k
        have hmlt : j % k < k := Nat.mod_lt j hkpos
        omega
      · have hdm := Nat.div_add_mod j k
        have hcomm : j / k * k = k * (j / k) := Nat.mul_comm _ _
        omega
    rcases Nat.eq_zero_or_pos t with rfl | ht1
    · rw [Nat.add_zero] at h ⊢
      rcases Nat.eq_zero_or_pos e with rfl | he1
      · rw [Nat.zero_mul, Nat.add_zero] at h ⊢
        exact symm_tip0 k hk b h
      · by_cases hsp : k = 1 ∧ e = 5
        · obtain ⟨rfl, rfl⟩ := hsp
          rw [show ring_offset 1 + 5 * 1 = 6 from rfl] at h ⊢
          rw [neighbors_six] at h
          simp only [List.mem_cons, List.not_mem_nil, or_false] at h
          rcases h with rfl | rfl | rfl | rfl | rfl | rfl <;> decide
        · exact symm_tip k e hk he1 he5 hsp b h
    · have hk2 : 2 ≤ k := by omega
      by_cases hsp : e = 5 ∧ t = k - 1
      · obtain ⟨he5', htk⟩ := hsp
        subst he5'
        rw [show ring_offset k + (5 * k + t) = ring_offset (k + 1) - 1 from by
            have hsucc := ring_offset_succ k hk
            omega] at h ⊢
        exact symm_last k hk2 b h
      · exact symm_nontip k e t hk2 he5 ht1 ht hsp b h

/-- C4: neighbor symmetry: for every pair of positions `a` and `b`,
`are_neighbors a b` holds if and only if `are_neighbors b a` holds. -/
theorem c4_neighbor_symm (a b : Nat) :
    are_neighbors a b = true ↔ are_neighbors b a = true := by
  unfold are_neighbors
  rw [List.contains, List.elem_iff, List.contains, List.elem_iff]
  exact ⟨fun h => mem_neighbors_comm h, fun h => mem_neighbors_comm h⟩


theorem rnd4_small (m : Int) (h : m.natAbs < 2 ^ 24) : rnd4 m = m := by
  simp only [rnd4]
  rw [if_pos h]

theorem log2Aux_eq : ∀ (k fuel n : Nat), k < fuel → 2 ^ k ≤ n → n < 2 ^ (k + 1) →
    log2Aux fuel n = k := by
  intro k
  induction k with
  | zero =>
    intro fuel n hf h1 h2
    obtain ⟨f, rfl⟩ : ∃ f, fuel = f + 1 := ⟨fuel - 1, by omega⟩
    rw [log2Aux, if_neg (by simp at h1 h2; omega)]
  | succ k ih =>
    intro fuel n hf h1 h2
    obtain ⟨f, rfl⟩ : ∃ f, fuel = f + 1 := ⟨fuel - 1, by omega⟩
    have e1 : 2 ^ (k + 1) = 2 * 2 ^ k := by ring
    have e2 : 2 ^ (k + 2) = 2 * 2 ^ (k + 1) := by ring
    have hp : 0 < 2 ^ k := Nat.pos_pow_of_pos k (by norm_num)
    rw [log2Aux, if_pos (by omega), ih f (n / 2) (by omega) (by omega) (by omega)]

theorem log2F_eq (n k : Nat) (hk : k < 64) (h1 : 2 ^ k ≤ n) (h2 : n < 2 ^ (k + 1)) :
    log2F n = k := log2Aux_eq k 64 n hk h1 h2

theorem rnd4_mul4 (m : Int) (h4 : (4 : Int) ∣ m) (h : m.natAbs < 2 ^ 26) :
    rnd4 m = m := by
  rcases Nat.lt_or_ge m.natAbs (2 ^ 24) with hs | hs
  · exact rnd4_small m hs
  · have h4n : 4 ∣ m.natAbs := by
      have := Int.natAbs_dvd_natAbs.mpr h4
      simpa using this
    simp only [rnd4]
    rw [if_neg (by omega)]
    rcases Nat.lt_or_ge m.natAbs (2 ^ 25) with h25 | h25
    · have hlog : log2F m.natAbs = 24 := log2F_eq _ 24 (by norm_num) hs h25
      rw [hlog,
        if_pos (show 2 * (m.natAbs % 2 ^ (24 - 23)) < 2 ^ (24 - 23) from by omega),
        show m.natAbs / 2 ^ (24 - 23) * 2 ^ (24 - 23) = m.natAbs from by omega]
      split <;> omega
    · have hlog : log2F m.natAbs = 25 := log2F_eq _ 25 (by norm_num) h25 h
      rw [hlog,
        if_pos (show 2 * (m.natAbs % 2 ^ (25 - 23)) < 2 ^ (25 - 23) from by omega),
        show m.natAbs / 2 ^ (25 - 23) * 2 ^ (25 - 23) = m.natAbs from by omega]
      split <;> omega

theorem rnd4_x_even (x : Nat) (h1 : 2 ^ 24 ≤ x) (h2 : x < 2 ^ 25) (he : x % 2 = 0) :
    rnd4 (4 * (x : Int)) = 4 * (x : Int) := by
  have habs : (4 * (x : Int)).natAbs = 4 * x := by omega
  simp only [rnd4]
  rw [if_neg (by omega), habs]
  have hlog : log2F (4 * x) = 26 := log2F_eq _ 26 (by norm_num) (by omega) (by omega)
  rw [hlog,
    if_pos (show 2 * (4 * x % 2 ^ (26 - 23)) < 2 ^ (26 - 23) from by omega),
    show 4 * x / 2 ^ (26 - 23) * 2 ^ (26 - 23) = 4 * x from by omega]
  split <;> omega

theorem rnd4_x_mod1 (x : Nat) (h1 : 2 ^ 24 ≤ x) (h2 : x < 2 ^ 25) (he : x % 4 = 1) :
    rnd4 (4 * (x : Int)) = 4 * ((x : Int) - 1) := by
  have habs : (4 * (x : Int)).natAbs = 4 * x := by omega
  simp only [rnd4]
  rw [if_neg (by omega), habs]
  have hlog : log2F (4 * x) = 26 := log2F_eq _ 26 (by norm_num) (by omega) (by omega)
  rw [hlog,
    if_neg (show ¬2 * (4 * x % 2 ^ (26 - 23)) < 2 ^ (26 - 23) from by omega),
    if_neg (show ¬2 ^ (26 - 23) < 2 * (4 * x % 2 ^ (26 - 23)) from by omega),
    if_pos (show 4 * x / 2 ^ (26 - 23) % 2 = 0 from by omega),
    show 4 * x / 2 ^ (26 - 23) * 2 ^ (26 - 23) = 4 * (x - 1) from by omega]
  split <;> omega

theorem rnd4_x_mod3 (x : Nat) (h1 : 2 ^ 24 ≤ x) (h2 : x < 2 ^ 25) (he : x % 4 = 3) :
    rnd4 (4 * (x : Int)) = 4 * ((x : Int) + 1) := by
  have habs : (4 * (x : Int)).natAbs = 4 * x := by omega
  simp only [rnd4]
  rw [if_neg (by omega), habs]
  have hlog : log2F (4 * x) = 26 := log2F_eq _ 26 (by norm_num) (by omega) (by omega)
  rw [hlog,
    if_neg (show ¬2 * (4 * x % 2 ^ (26 - 23)) < 2 ^ (26 - 23) from by omega),
    if_neg (show ¬2 ^ (26 - 23) < 2 * (4 * x % 2 ^ (26 - 23)) from by omega),
    if_neg (show ¬4 * x / 2 ^ (26 - 23) % 2 = 0 from by omega),
    show (4 * x / 2 ^ (26 - 23) + 1) * 2 ^ (26 - 23) = 4 * (x + 1) from by omega]
  split <;> omega

theorem tmod_gt_neg (a : Int) {b : Int} (hb : 0 < b) : -b < Int.tmod a b := by
  rcases a with m | m
  · have h0 : (0 : Int) ≤ Int.tmod (Int.ofNat m) b :=
      Int.tmod_nonneg b (Int.ofNat_nonneg m)
    omega
  · obtain ⟨n, rfl⟩ : ∃ n : Nat, b = (n : Int) :=
      ⟨b.toNat, (Int.toNat_of_nonneg (by omega)).symm⟩
    have hn : 0 < n := by exact_mod_cast hb
    rw [show Int.tmod (Int.negSucc m) (n : Int) = -(((m + 1) % n : Nat) : Int) from rfl]
    have := Nat.mod_lt (m + 1) hn
    omega

theorem modulo_f32_eq (a b : Int) (hb : 0 < b) (hsmall : b < 2 ^ 23) :
    modulo_f32 a b = modulo a b := by
  have h1 : -b < Int.tmod a b := tmod_gt_neg a hb
  have h2 : Int.tmod a b < b := Int.tmod_lt_of_pos a hb
  rw [modulo_f32, rnd4_small _ (by omega),
    Int.tmod_eq_emod (by omega) (by omega), modulo]
  have hd := Int.tmod_add_tdiv a b
  have hrw : Int.tmod a b + b = a + b * (1 - a.tdiv b) := by linarith [hd]
  rw [hrw, Int.add_mul_emod_self_left]
  rw [show a % b + b = a % b + b * 1 from by ring, Int.add_mul_emod_self_left,
    Int.emod_emod_of_dvd _ dvd_rfl]

theorem i32cast_small (m : Int) (h : m.natAbs < 2 ^ 33) :
    i32cast m = Int.sign m * (m.natAbs / 4 : Nat) := by
  rcases Int.lt_trichotomy m 0 with hm | hm | hm
  · rw [i32cast, Int.sign_eq_neg_one_of_neg hm]
    have : (m.natAbs / 4 : Nat) < 2 ^ 31 := by omega
    omega
  · subst hm
    rw [i32cast]
    norm_num
  · rw [i32cast, Int.sign_eq_one_of_pos hm]
    have : (m.natAbs / 4 : Nat) < 2 ^ 31 := by omega
    omega



theorem modulo_bounds (a b : Int) (hb : 0 < b) : 0 ≤ modulo a b ∧ modulo a b < b := by
  rw [modulo]
  exact ⟨Int.emod_nonneg _ (by omega), Int.emod_lt_of_pos _ hb⟩

theorem i32cast_sign_mul (y c : Int) (hc1 : 1 ≤ c) (hc2 : c ≤ 2366) :
    i32cast (Int.sign y * (4 * c)) = Int.sign y * c := by
  rcases Int.lt_trichotomy y 0 with hy | hy | hy
  · rw [Int.sign_eq_neg_one_of_neg hy,
      i32cast_small _ (by omega), Int.sign_eq_neg_one_of_neg (by omega)]
    have : ((-1 * (4 * c)).natAbs / 4 : Nat) = c.toNat := by omega
    rw [this]
    omega
  · subst hy
    rw [Int.sign_zero, zero_mul, zero_mul, i32cast_small _ (by omega)]
    norm_num
  · rw [Int.sign_eq_one_of_pos hy,
      i32cast_small _ (by omega), Int.sign_eq_one_of_pos (by omega)]
    have : ((1 * (4 * c)).natAbs / 4 : Nat) = c.toNat := by omega
    rw [this]
    omega

theorem gtt32_exact (x c xp phi : Int) (hc1 : 1 ≤ c) (hc2 : c ≤ 2366)
    (hphi0 : 0 ≤ phi) (hphi4 : phi ≤ 4) (h0 : 0 ≤ x - xp) (h6 : x - xp < 6 * c) :
    growing_trunc_tri_f32 (4 * x) (4 * c) (4 * xp) (4 * phi)
      = growing_trunc_tri x c xp phi := by
  have hprod1 : 0 ≤ c * (2 * phi + 6) := by positivity
  have hprod2 : c * (2 * phi + 6) ≤ 2366 * 14 :=
    Int.mul_le_mul hc2 (by omega) (by omega) (by omega)
  have h_off : rnd4 (4 * x - 4 * xp) = 4 * (x - xp) := by
    rw [show (4 * x - 4 * xp : Int) = 4 * (x - xp) from by ring]
    exact rnd4_small _ (by omega)
  have h_2phi : rnd4 (8 * (4 * phi) / 4) = 8 * phi := by
    rw [show (8 * (4 * phi) : Int) / 4 = 8 * phi from by omega]
    exact rnd4_small _ (by omega)
  have h_t2 : rnd4 (8 * phi + 24) = 8 * phi + 24 := rnd4_small _ (by omega)
  have h_div1 : (4 * c : Int) / 4 = c := by omega
  have h_t3 : rnd4 (c * (8 * phi + 24) / 4) = c * (2 * phi + 6) := by
    rw [show (c * (8 * phi + 24) : Int) = 4 * (c * (2 * phi + 6)) from by ring,
      Int.mul_ediv_cancel_left _ (by norm_num)]
    exact rnd4_small _ (by omega)
  have h_s : rnd4 (4 * (x - xp) - c * (2 * phi + 6)) = 4 * (x - xp) - c * (2 * phi + 6) :=
    rnd4_small _ (by omega)
  have h_pstar : rnd4 (4 * c * 24 / 4) = 24 * c := by
    rw [show (4 * c * 24 : Int) / 4 = 24 * c from by omega]
    exact rnd4_small _ (by omega)
  have h_cp2 : (24 * c : Int) / 2 = 12 * c := by omega
  set S : Int := 4 * (x - xp) - c * (2 * phi + 6) with hS
  have h_mod : modulo_f32 S (24 * c) = modulo S (24 * c) :=
    modulo_f32_eq _ _ (by omega) (by omega)
  obtain ⟨hm0, hm1⟩ := modulo_bounds S (24 * c) (by omega)
  have h_d : rnd4 (modulo S (24 * c) - 12 * c) = modulo S (24 * c) - 12 * c :=
    rnd4_small _ (by omega)
  set D : Int := modulo S (24 * c) - 12 * c with hD
  have habsD : |D| = (D.natAbs : Int) := Int.abs_eq_natAbs D
  have h_abs4 : rnd4 (4 * |D| / 4) = |D| := by
    rw [Int.mul_ediv_cancel_left _ (by norm_num)]
    exact rnd4_small _ (by rw [habsD]; omega)
  have h_f1 : rnd4 (6 * (4 * c) / 4) = 6 * c := by
    rw [show (6 * (4 * c) : Int) / 4 = 6 * c from by omega]
    exact rnd4_small _ (by omega)
  have h_y1 : rnd4 (|D| - 6 * c) = |D| - 6 * c :=
    rnd4_small _ (by rw [habsD]; omega)
  simp only [growing_trunc_tri_f32, growing_trunc_tri]
  rw [h_off, h_2phi, h_t2, h_div1, h_t3, ← hS, h_s, h_pstar, h_mod, h_cp2, ← hD, h_d,
    h_abs4, h_f1, h_y1]
  rw [show (4 * (c * 6) : Int) = 24 * c from by ring,
    show (2 * (c * 6) : Int) = 12 * c from by ring,
    show (6 : Int) / 6 = 1 from by norm_num, one_mul]
  rw [← hD]
  set Y : Int := |D| - 6 * c with hY
  have habsY : |Y| = (Y.natAbs : Int) := Int.abs_eq_natAbs Y
  by_cases hbr : 4 * c < |Y|
  · rw [if_pos hbr, if_pos hbr, i32cast_sign_mul Y c hc1 hc2]
  · rw [if_neg hbr, if_neg hbr, i32cast_small _ (by rw [habsY] at hbr; omega)]

theorem stcf32_eq (p : Nat) (hp : p < 2 ^ 24) :
    spiral_to_cube_f32 p = spiral_to_cube p := by
  rcases Nat.eq_zero_or_pos p with rfl | hpos
  · rfl
  · obtain ⟨k, j, hk, hj, rfl, hring⟩ := exists_ring_decomp p hpos
    have hro2366 : ring_offset 2366 = 16786771 := by norm_num [ring_offset]
    have hk2365 : k ≤ 2365 := by
      by_contra hcon
      push_neg at hcon
      have h1 : ring_offset 2366 ≤ ring_offset k := ring_offset_mono (by omega)
      omega
    have hro : ring_offset k ≤ ring_offset 2365 := ring_offset_mono hk2365
    have hro2365 : ring_offset 2365 = 16772581 := by norm_num [ring_offset]
    simp only [spiral_to_cube_f32, spiral_to_cube,
      if_neg (show ¬(ring_offset k + j = 0) from by omega), hring]
    rw [rnd4_small (4 * (k : Int)) (by omega),
      show ((4 * (k : Int)) / 4).toNat = k from by omega,
      rnd4_mul4 (4 * (ring_offset k : Int)) ⟨_, rfl⟩ (by omega),
      rnd4_mul4 (4 * ((ring_offset k + j : Nat) : Int)) ⟨_, rfl⟩ (by omega)]
    have hq := gtt32_exact ((ring_offset k + j : Nat) : Int) k (ring_offset k) 0
      (by omega) (by omega) (by norm_num) (by norm_num)
      (by push_cast; omega) (by push_cast; omega)
    have hr := gtt32_exact ((ring_offset k + j : Nat) : Int) k (ring_offset k) 4
      (by omega) (by omega) (by norm_num) (by norm_num)
      (by push_cast; omega) (by push_cast; omega)
    rw [show (4 * (0 : Int)) = 0 from by norm_num] at hq
    rw [show (4 * (4 : Int)) = 16 from by norm_num] at hr
    rw [hq, hr]

/-- C2 (amended): for every position `p < 2 ^ 24` -- the bound below which
every `f32` operation of `spiral_to_cube` is exact -- the cube returned by the
bit-accurate model `spiral_to_cube_f32` has component sum 0 and its largest
absolute component equals `ring p`.  The original unbounded claim is refuted
at `p = ring_offset (2 ^ 24 + 3)` by `c2_counterexample`. -/
theorem c2_cube_invariant (p : Nat) (hp : p < 2 ^ 24) :
    (spiral_to_cube_f32 p).q + (spiral_to_cube_f32 p).r + (spiral_to_cube_f32 p).s = 0 ∧
    (spiral_to_cube_f32 p).abs_largest = (ring p : Int) := by
  rw [stcf32_eq p hp]
  rcases Nat.eq_zero_or_pos p with rfl | hpos
  · exact ⟨by decide, by decide⟩
  · obtain ⟨k, j, hk, hj, rfl, hring⟩ := exists_ring_decomp p hpos
    rw [spiral_to_cube_closed k j hk hj, hring]
    refine ⟨by ring, ?_⟩
    show max |qClosed (k : Int) (j : Int)| _ = _
    rw [closed_abs_largest (k : Int) (j : Int) (by exact_mod_cast hk) (by positivity)
      (by exact_mod_cast hj)]

theorem c2_cube_invariant_witness :
    45 < 2 ^ 24 ∧
    ((spiral_to_cube_f32 45).q + (spiral_to_cube_f32 45).r + (spiral_to_cube_f32 45).s = 0 ∧
      (spiral_to_cube_f32 45).abs_largest = (ring 45 : Int)) :=
  ⟨by norm_num, c2_cube_invariant 45 (by norm_num)⟩

set_option maxRecDepth 100000 in
/-- C2 counterexample: the claim as stated, for every position, fails on the
real `f32` computation: at `p = ring_offset (2 ^ 24 + 3) = 844425181790227`
(a valid `usize`), `ring(x) as f32` rounds the ring index `2 ^ 24 + 3` to
`2 ^ 24 + 4`, the wave is clamped to the rounded index, and the returned cube
`(16777206, 14, -16777220)` has largest absolute component `2 ^ 24 + 4`, not
`ring p = 2 ^ 24 + 3` -- even though its component sum is still `0`. -/
theorem c2_counterexample :
    (spiral_to_cube_f32 844425181790227).component_sum = 0 ∧
    (spiral_to_cube_f32 844425181790227).abs_largest ≠ (ring 844425181790227 : Int) := by
  have hoff : ring_offset 16777219 = 844425181790227 := by norm_num [ring_offset]
  have hr : ring 844425181790227 = 16777219 := by
    have h := ring_of_ring_offset_add 16777219 0 (by norm_num) (by norm_num)
    rwa [Nat.add_zero, hoff] at h
  have hstc : spiral_to_cube_f32 844425181790227 = ⟨16777206, 14, -16777220⟩ := by
    simp only [spiral_to_cube_f32, hr]
    decide
  rw [hstc, hr]
  exact ⟨by decide, by decide⟩

theorem findFirst_eq_none (pred : Nat → Bool) :
    ∀ (n start : Nat), (∀ i, i < n → pred (start + i) = false) →
    findFirst pred start n = none := by
  intro n
  induction n with
  | zero => intro start _; rfl
  | succ m ih =>
    intro start h
    have h0 := h 0 (by omega)
    rw [Nat.add_zero] at h0
    rw [findFirst, h0]
    simp only [Bool.false_eq_true, if_false]
    exact ih (start + 1) (fun i hi => by
      have hh := h (i + 1) (by omega)
      rwa [show start + (i + 1) = start + 1 + i from by omega] at hh)

theorem findFirst_congr (p1 p2 : Nat → Bool) :
    ∀ (n start : Nat), (∀ i, i < n → p1 (start + i) = p2 (start + i)) →
    findFirst p1 start n = findFirst p2 start n := by
  intro n
  induction n with
  | zero => intro start _; rfl
  | succ m ih =>
    intro start h
    have h0 := h 0 (by omega)
    rw [Nat.add_zero] at h0
    rw [findFirst, findFirst, h0, ih (start + 1) (fun i hi => by
      have hh := h (i + 1) (by omega)
      rwa [show start + (i + 1) = start + 1 + i from by omega] at hh)]

theorem ctsf32_of_none (coord : Cube) (h0 : ¬(coord = ⟨0, 0, 0⟩))
    (hs : ¬(coord.component_sum ≠ 0))
    (hn : findFirst (fun v => decide (spiral_to_cube_f32 v = coord))
      (ring_offset coord.abs_largest.toNat) (coord.abs_largest.toNat * 6) = none) :
    cube_to_spiral_f32 coord = .error "Couldn't find a solution" := by
  rw [cube_to_spiral_f32, if_neg h0, if_neg hs]
  simp only [hn]

theorem ctsf32_of_some (coord : Cube) (h0 : ¬(coord = ⟨0, 0, 0⟩))
    (hs : ¬(coord.component_sum ≠ 0)) (m : Nat)
    (hn : findFirst (fun v => decide (spiral_to_cube_f32 v = coord))
      (ring_offset coord.abs_largest.toNat) (coord.abs_largest.toNat * 6) = some m) :
    cube_to_spiral_f32 coord = .ok m := by
  rw [cube_to_spiral_f32, if_neg h0, if_neg hs]
  simp only [hn]

theorem ctsf32_not_invalid (coord : Cube) (h0 : ¬(coord = ⟨0, 0, 0⟩))
    (hs : ¬(coord.component_sum ≠ 0)) :
    cube_to_spiral_f32 coord ≠ .error "q + r + s != 0" := by
  cases hf : findFirst (fun v => decide (spiral_to_cube_f32 v = coord))
      (ring_offset coord.abs_largest.toNat) (coord.abs_largest.toNat * 6) with
  | none =>
    rw [ctsf32_of_none coord h0 hs hf]
    intro hcon
    rw [Except.error.injEq] at hcon
    exact absurd hcon (by decide)
  | some m =>
    rw [ctsf32_of_some coord h0 hs m hf]
    intro hcon
    exact Except.noConfusion hcon

theorem stc_f32_ring2366 (j : Nat) (hj : j < 14196) :
    ∃ t : Nat, t % 2 = 0 ∧ t ≤ 14194 ∧
      spiral_to_cube_f32 (16786771 + j)
        = ⟨qClosed 2366 (t : Int), rClosed 2366 (t : Int),
           -qClosed 2366 (t : Int) - rClosed 2366 (t : Int)⟩ := by
  have hro2366 : ring_offset 2366 = 16786771 := by norm_num [ring_offset]
  have hr : ring (16786771 + j) = 2366 := by
    have h := ring_of_ring_offset_add 2366 j (by norm_num) (by omega)
    rwa [hro2366] at h
  obtain ⟨t, ht2, htle, hte⟩ : ∃ t, t % 2 = 0 ∧ t ≤ 14194 ∧
      rnd4 (4 * ((16786771 + j : Nat) : Int)) = 4 * ((16786772 + t : Nat) : Int) := by
    rcases Nat.lt_or_ge 0 (j % 2) with hj2 | hj2
    · refine ⟨j - 1, by omega, by omega, ?_⟩
      rw [show (16786771 + j : Nat) = 16786772 + (j - 1) from by omega]
      exact rnd4_x_even _ (by omega) (by omega) (by omega)
    · rcases Nat.lt_or_ge 0 (j % 4) with hj4 | hj4
      · refine ⟨j - 2, by omega, by omega, ?_⟩
        rw [rnd4_x_mod1 (16786771 + j) (by omega) (by omega) (by omega)]
        push_cast
        omega
      · refine ⟨j, by omega, by omega, ?_⟩
        rw [rnd4_x_mod3 (16786771 + j) (by omega) (by omega) (by omega)]
        push_cast
        omega
  refine ⟨t, ht2, htle, ?_⟩
  simp only [spiral_to_cube_f32, if_neg (show ¬(16786771 + j = 0) from by omega), hr]
  rw [rnd4_small (4 * ((2366 : Nat) : Int)) (by decide),
    show ((4 * ((2366 : Nat) : Int)) / 4).toNat = 2366 from by decide,
    hro2366,
    show rnd4 (4 * ((16786771 : Nat) : Int)) = 4 * ((16786772 : Nat) : Int) from by decide,
    hte]
  have hq := gtt32_exact ((16786772 + t : Nat) : Int) ((2366 : Nat) : Int)
    ((16786772 : Nat) : Int) 0 (by norm_num) (by norm_num) (by norm_num) (by norm_num)
    (by push_cast; omega) (by push_cast; omega)
  have hrr := gtt32_exact ((16786772 + t : Nat) : Int) ((2366 : Nat) : Int)
    ((16786772 : Nat) : Int) 4 (by norm_num) (by norm_num) (by norm_num) (by norm_num)
    (by push_cast; omega) (by push_cast; omega)
  rw [show (4 * (0 : Int)) = 0 from by norm_num] at hq
  rw [show (4 * (4 : Int)) = 16 from by norm_num] at hrr
  rw [hq, hrr, Nat.cast_add,
    gtt_q ((16786772 : Nat) : Int) ((2366 : Nat) : Int) (t : Int) (by norm_num)
      (by positivity) (by push_cast; omega),
    gtt_r ((16786772 : Nat) : Int) ((2366 : Nat) : Int) (t : Int) (by norm_num)
      (by positivity) (by push_cast; omega)]
  norm_num

theorem stc_f32_ring2366_ne (j : Nat) (hj : j < 14196) :
    spiral_to_cube_f32 (16786771 + j) ≠ (⟨2366, -2365, -1⟩ : Cube) := by
  obtain ⟨t, ht2, htle, hval⟩ := stc_f32_ring2366 j hj
  rw [hval]
  intro heq
  rw [Cube.mk.injEq] at heq
  obtain ⟨h1, h2, h3⟩ := heq
  simp only [rClosed] at h2
  split_ifs at h2 <;> omega

/-- C6 counterexample: the claim as stated -- every cube with component sum 0
is converted back with `Ok` -- fails on the real `f32` computation: the valid
cube `(2366, -2365, -1)` (component sum `0`, well inside `i32`) makes
`cube_to_spiral` return the NotFound error, because every search position of
ring `2366` exceeds `2 ^ 24`, `x as f32` collapses odd and even positions onto
the even grid, and the unique ideal preimage of this cube sits at the odd ring
offset `2367`, which the search therefore never reaches. -/
theorem c6_counterexample :
    (Cube.mk 2366 (-2365) (-1)).component_sum = 0 ∧
    cube_to_spiral_f32 ⟨2366, -2365, -1⟩ = .error "Couldn't find a solution" := by
  refine ⟨by decide, ?_⟩
  have hnone : findFirst
      (fun v => decide (spiral_to_cube_f32 v = (⟨2366, -2365, -1⟩ : Cube)))
      16786771 14196 = none :=
    findFirst_eq_none _ 14196 16786771
      (fun i hi => decide_eq_false (stc_f32_ring2366_ne i hi))
  refine ctsf32_of_none _ (by decide) (by decide) ?_
  rw [show (Cube.mk 2366 (-2365) (-1)).abs_largest.toNat = 2366 from by decide,
    show ring_offset 2366 = 16786771 from by norm_num [ring_offset],
    show 2366 * 6 = 14196 from by norm_num]
  exact hnone

/-- C6 (amended): over the bit-accurate model, `cube_to_spiral` returns the
InvalidCube error exactly when the component sum is nonzero; it returns `ok`
on every cube with component sum 0 whose largest absolute component is at most
`2364` -- the rings whose search positions all stay below `2 ^ 24`, where the
`f32` search is exact -- and `cube_to_spiral (-1, -1, 0)` is the InvalidCube
error.  The original claim (`ok` for every cube with component sum 0, the
NotFound branch unreachable) is refuted at `(2366, -2365, -1)` by
`c6_counterexample`. -/
theorem c6_error_behaviour :
    (∀ c : Cube,
      (cube_to_spiral_f32 c = .error "q + r + s != 0" ↔ c.q + c.r + c.s ≠ 0) ∧
      (c.q + c.r + c.s = 0 → c.abs_largest ≤ 2364 →
        ∃ p : Nat, cube_to_spiral_f32 c = .ok p)) ∧
    cube_to_spiral_f32 ⟨-1, -1, 0⟩ = .error "q + r + s != 0" := by
  have hok : ∀ c : Cube, c.q + c.r + c.s = 0 → c.abs_largest ≤ 2364 →
      ∃ p : Nat, cube_to_spiral_f32 c = .ok p := by
    intro c hsum hbnd
    by_cases hzero : c = (⟨0, 0, 0⟩ : Cube)
    · exact ⟨0, by rw [cube_to_spiral_f32, if_pos hzero]⟩
    · obtain ⟨jn, hjn, hhit⟩ := spiral_to_cube_surjective c hsum hzero
      have hk2364 : c.abs_largest.toNat ≤ 2364 := by omega
      have hmono : ring_offset c.abs_largest.toNat ≤ ring_offset 2364 :=
        ring_offset_mono hk2364
      have hro2364 : ring_offset 2364 = 16758397 := by norm_num [ring_offset]
      have hpos_bound :
          ring_offset c.abs_largest.toNat + c.abs_largest.toNat * 6 ≤ 2 ^ 24 := by
        omega
      have hcong := findFirst_congr
        (fun v => decide (spiral_to_cube_f32 v = c))
        (fun v => decide (spiral_to_cube v = c))
        (c.abs_largest.toNat * 6) (ring_offset c.abs_largest.toNat)
        (fun i hi => by
          simp only [stcf32_eq (ring_offset c.abs_largest.toNat + i) (by omega)])
      obtain ⟨m, hm⟩ := findFirst_isSome
        (fun v => decide (spiral_to_cube v = c)) (c.abs_largest.toNat * 6)
        (ring_offset c.abs_largest.toNat) jn (by omega) (by simpa using hhit)
      refine ⟨m, ctsf32_of_some c hzero (not_not_intro hsum) m ?_⟩
      rw [hcong]
      exact hm
  refine ⟨fun c => ⟨⟨?_, ?_⟩, hok c⟩, by rfl⟩
  · intro herr
    by_contra hsum
    by_cases hzero : c = (⟨0, 0, 0⟩ : Cube)
    · rw [cube_to_spiral_f32, if_pos hzero] at herr
      exact Except.noConfusion herr
    · exact ctsf32_not_invalid c hzero (not_not_intro (show c.component_sum = 0 from hsum)) herr
  · intro hsum
    have hzero : c ≠ (⟨0, 0, 0⟩ : Cube) := by
      intro h
      rw [h] at hsum
      simp at hsum
    rw [cube_to_spiral_f32, if_neg hzero, if_pos (show c.component_sum ≠ 0 from hsum)]

theorem c6_error_behaviour_witness :
    (1 : Int) + -2 + 1 = 0 ∧ (Cube.mk 1 (-2) 1).abs_largest ≤ 2364 ∧
    ∃ p : Nat, cube_to_spiral_f32 ⟨1, -2, 1⟩ = .ok p :=
  ⟨by decide, by decide, (c6_error_behaviour.1 ⟨1, -2, 1⟩).2 (by decide) (by decide)⟩

end HexSpiral
